import Mathlib

/-!
# MV2H `BasicCalculation_v170122.hpp`: numeric helpers, `Prob<T>` and `TemporalData`

A shallow embedding of the header.  `vector<X>` is `List X`.  `double` is an
arbitrary linearly ordered field `α` (exact arithmetic, no rounding, no NaN);
the `<cmath>` functions `exp`, `log` and `pow(·,0.5)` are parameters of the
definitions that call them and are instantiated with `Real.exp`, `Real.log`
and `Real.sqrt` in the theorems that need their properties.  The value of
`rand()/RAND_MAX` is an explicit argument.  An access `v[i]` outside the
vector is undefined behaviour in the source and is `none` here.  Loop counters
and sizes are natural numbers (the wrap-around of an `int` counter on a vector
of `2^31` or more elements is not modelled), except in `Prob::Entropy`, whose
`int` counter is carried through the loop.  The `int` arithmetic of `gcd`,
`lcm` and of that counter is 32-bit two's-complement: every result is wrapped
into `[-2^31, 2^31)`, which is what the usual targets compute where C++ leaves
signed overflow undefined.  A loop without a bound in the source (`gcd`) takes
a fuel argument and is `none` when the fuel runs out.
-/

namespace MV2H

/-! ## Definitions -/

/-! ### Numeric helpers -/

section Numeric

variable {α : Type}

/-- Largest value of a 32-bit `int`. -/
def INT_MAX : Int := 2147483647

/-- Smallest value of a 32-bit `int`. -/
def INT_MIN : Int := -2147483648

/-- Value stored in a 32-bit `int` for the mathematical result `x`
(two's-complement wrap-around). -/
def wrapInt (x : Int) : Int := (x + 2147483648) % 4294967296 - 2147483648

/-- Loop `while(m!=n){if(m>n){m=m-n;}else{n=n-m;}}` of `gcd`, followed by
`return m`; `fuel` bounds the number of evaluations of the loop condition. -/
def gcd.loop : Nat → Int → Int → Option Int
  | 0, _, _ => none
  | fuel + 1, m, n =>
    if m ≠ n then
      if m > n then gcd.loop fuel (wrapInt (m - n)) n else gcd.loop fuel m (wrapInt (n - m))
    else some m

/-- Function `gcd`. -/
def gcd (fuel : Nat) (m n : Int) : Option Int :=
  if 0 = m ∨ 0 = n then some 0 else gcd.loop fuel m n

/-- Function `lcm`: `(m/gcd(m,n))*n` with truncating `int` division; a division
by zero and the quotient `INT_MIN / -1` have no result. -/
def lcm (fuel : Nat) (m n : Int) : Option Int :=
  if 0 = m ∨ 0 = n then some 0
  else
    match gcd fuel m n with
    | none => none
    | some g =>
      if g = 0 ∨ (m = INT_MIN ∧ g = -1) then none
      else some (wrapInt (wrapInt (Int.tdiv m g) * n))

/-- Function `LogAdd`. -/
def LogAdd [LinearOrderedField α] (exp log : α → α) (d1 d2 : α) : α :=
  if d1 > d2 then d1 + log (1 + exp (d2 - d1)) else d2 + log (1 + exp (d1 - d2))

/-- Function `Norm`: the elements are summed in a first loop and each is divided
by the sum in a second one. -/
def Norm [LinearOrderedField α] (vd : List α) : List α :=
  let sum := vd.foldl (fun sum x => sum + x) 0
  vd.map (fun x => x / sum)

/-- First loop of `Lognorm`: running maximum, started at `vd[0]`. -/
def Lognorm.max [LinearOrder α] (vd0 : α) (vd : List α) : α :=
  vd.foldl (fun tmpd x => if x > tmpd then x else tmpd) vd0

/-- State of `Lognorm` before the clamp of its last loop: the elements shifted
by the maximum, and the logarithm of the sum of their exponentials. -/
def Lognorm.shift [LinearOrderedField α] (exp log : α → α) (vd0 : α) (vd : List α) :
    List α × α :=
  let tmpd := Lognorm.max vd0 vd
  let vd1 := vd.map (fun x => x - tmpd)
  let tmpd := vd1.foldl (fun tmpd x => tmpd + exp x) 0
  (vd1, log tmpd)

/-- Function `Lognorm`; `vd[0]` is read first, so an empty vector has no result. -/
def Lognorm [LinearOrderedField α] (exp log : α → α) (vd : List α) : Option (List α) :=
  match vd with
  | [] => none
  | vd0 :: _ =>
    let st := Lognorm.shift exp log vd0 vd
    some (st.1.map (fun x => if x - st.2 < -200 then -200 else x - st.2))

/-- Function `Average`; `none` is the failed `assert(vd.size()>0)`. -/
def Average [LinearOrderedField α] (vd : List α) : Option α :=
  if vd.length > 0 then
    let sum := vd.foldl (fun sum x => sum + x) 0
    some (sum / (vd.length : α))
  else none

/-- Function `StDev`; `none` is the failed `assert(vd.size()>1)`.  The argument
`sqrt` stands for `pow(·, 0.5)`. -/
def StDev [LinearOrderedField α] (sqrt : α → α) (vd : List α) : Option α :=
  if vd.length > 1 then
    match Average vd with
    | none => none
    | some ave =>
      let sum := vd.foldl (fun sum x => sum + (x - ave) ^ 2) 0
      some (sqrt (sum / ((vd.length - 1 : Nat) : α)))
  else none

/-- Function `KLDiv`; `none` is the failed `assert(p.size()==q.size())`.  The
default argument `regularizer=0` is passed explicitly. -/
def KLDiv [LinearOrderedField α] (log : α → α) (p q : List α) (regularizer : α) : Option α :=
  if p.length = q.length then
    some ((p.zip q).foldl (fun sum pq =>
      if pq.1 < 1e-100 then sum else sum + pq.1 * (log pq.1 - log (pq.2 + regularizer))) 0)
  else none

/-- Loop of `SampleDistr` at index `i` with `n` iterations left; when none is
left the function returns `p.size()-1`. -/
def SampleDistr.loop [LinearOrderedField α] (p : List α) : Nat → Nat → α → Option Nat
  | 0, _, _ => some (p.length - 1)
  | n + 1, i, val =>
    match p[i]? with
    | none => none
    | some pi => if val < pi then some i else SampleDistr.loop p n (i + 1) (val - pi)

/-- Function `SampleDistr`, with the value `val` of `rand()/RAND_MAX` as an
argument.  The loop runs while `i < p.size()-1`; for an empty vector the
unsigned bound wraps around and `p[0]` is read out of range. -/
def SampleDistr [LinearOrderedField α] (val : α) (p : List α) : Option Nat :=
  if p.length = 0 then none else SampleDistr.loop p (p.length - 1) 0 val

end Numeric

/-! ### `Pair`, `MorePair` and `Prob<T>` -/

/-- Class `Pair`: an index and a value. -/
structure Pair (α : Type) where
  ID : Nat
  value : α
deriving DecidableEq, Repr

/-- Functor `MorePair`: `a.value > b.value`. -/
def MorePair {α : Type} [LinearOrder α] (a b : Pair α) : Bool :=
  if a.value > b.value then true else false

/-- Library `std::stable_sort(first, last, comp)`: the elements are arranged so
that no element is `comp`-before an earlier one, and elements equivalent under
`comp` keep their relative order.  Realised as a stable insertion sort: an
element is moved behind exactly those that are strictly `comp`-before it. -/
def stable_sort {β : Type} (comp : β → β → Bool) (l : List β) : List β :=
  l.insertionSort (fun a b => comp b a = false)

/-- Class template `Prob<T>`: three parallel vectors. -/
structure Prob (α T : Type) where
  P : List α
  LP : List α
  samples : List T
deriving DecidableEq, Repr

namespace Prob

variable {α T : Type}

/-- Method `PToLP`: `LP` is cleared, resized to `P.size()` and filled with `log(P[i])`. -/
def PToLP (log : α → α) (p : Prob α T) : Prob α T :=
  { p with LP := p.P.map log }

/-- Method `LPToP`: `P` is cleared, resized to `LP.size()` and filled with `exp(LP[i])`. -/
def LPToP (exp : α → α) (p : Prob α T) : Prob α T :=
  { p with P := p.LP.map exp }

/-- Method `Normalize`: `Norm(P); PToLP();`. -/
def Normalize [LinearOrderedField α] (log : α → α) (p : Prob α T) : Prob α T :=
  PToLP log { p with P := Norm p.P }

/-- Method `LogNormalize`: `Lognorm(LP); LPToP();`. -/
def LogNormalize [LinearOrderedField α] (exp log : α → α) (p : Prob α T) : Option (Prob α T) :=
  match Lognorm exp log p.LP with
  | none => none
  | some LP' => some (LPToP exp { p with LP := LP' })

/-- Method `Clear`. -/
def Clear (_p : Prob α T) : Prob α T :=
  { P := [], LP := [], samples := [] }

/-- Method `Resize`: the three vectors are cleared and resized to `_size`
value-initialised elements; a negative `_size` is not a size and the call throws. -/
def Resize [Zero α] [Inhabited T] (_size : Int) (_p : Prob α T) : Option (Prob α T) :=
  if _size < 0 then none
  else some { P := List.replicate _size.toNat 0, LP := List.replicate _size.toNat 0,
              samples := List.replicate _size.toNat default }

/-- Method `Assign`: as `Resize`, with `P` filled with `value`. -/
def Assign [Zero α] [Inhabited T] (_size : Int) (value : α) (_p : Prob α T) :
    Option (Prob α T) :=
  if _size < 0 then none
  else some { P := List.replicate _size.toNat value, LP := List.replicate _size.toNat 0,
              samples := List.replicate _size.toNat default }

/-- Method `Randomize`; `draws i` is the value of `rand()/RAND_MAX` in iteration `i`. -/
def Randomize [LinearOrderedField α] (log : α → α) (draws : Nat → α) (p : Prob α T) :
    Prob α T :=
  Normalize log { p with P := (List.range p.P.length).map draws }

/-- Loop `for(int i=0;i<P.size();i+=1)` of `Entropy` on the entries that remain
from index `i` on.  The test `i<P.size()` converts `i` to the unsigned size
type: it holds for `0 <= i` while an entry remains, and fails once `i+=1` has
wrapped `i` from `INT_MAX` to `INT_MIN`, whose unsigned value is above every
size. -/
def Entropy.loop [LinearOrderedField α] (log : α → α) : List α → Int → α → α
  | [], _, ent => ent
  | x :: rest, i, ent =>
    if i < 0 then ent
    else Entropy.loop log rest (wrapInt (i + 1)) (if x < 1e-10 then ent else ent + -x * log x)

/-- Method `Entropy`. -/
def Entropy [LinearOrderedField α] (log : α → α) (p : Prob α T) : α :=
  Entropy.loop log p.P 0 0

/-- Specification side: the length invariant `len(P) == len(LP) == len(samples)`. -/
def Invariant (p : Prob α T) : Prop :=
  p.P.length = p.LP.length ∧ p.LP.length = p.samples.length

/-- A small distribution over the reals with two labelled outcomes. -/
def sampleProb : Prob ℝ String :=
  { P := [1, 3], LP := [0, 0], samples := ["a", "b"] }

/-- First loop of `Sort`: `pairs` receives `(i, P[i])` for `i = 0 .. P.size()-1`. -/
def Sort_.pairs (P : List α) : List (Pair α) :=
  P.enum.map (fun iv => { ID := iv.1, value := iv.2 })

/-- The sorted `pairs` vector of `Sort`. -/
def Sort_.sorted [LinearOrder α] (P : List α) : List (Pair α) :=
  stable_sort MorePair (Sort_.pairs P)

/-- The `ID` fields of the sorted `pairs`: position `k` of the result holds the
outcome that was at position `order[k]` before the call. -/
def Sort_.order [LinearOrder α] (P : List α) : List Nat :=
  (Sort_.sorted P).map Pair.ID

/-- One iteration of the second loop of `Sort`:
`P[i]=tmpProb.P[pairs[i].ID]; samples[i]=tmpProb.samples[pairs[i].ID];`. -/
def Sort_.step (tmpProb : Prob α T) (pairs : List (Pair α))
    (st : List α × List T) (i : Nat) : Option (List α × List T) :=
  match pairs[i]? with
  | none => none
  | some pr =>
    match tmpProb.P[pr.ID]?, tmpProb.samples[pr.ID]? with
    | some v, some s =>
      if i < st.1.length ∧ i < st.2.length then some (st.1.set i v, st.2.set i s) else none
    | _, _ => none

/-- Method `Sort` (the name `Sort` is reserved in Lean, hence the underscore). -/
def Sort_ [LinearOrder α] (log : α → α) (p : Prob α T) : Option (Prob α T) :=
  let pairs := Sort_.sorted p.P
  let tmpProb := p
  match (List.range p.P.length).foldlM (Sort_.step tmpProb pairs) (p.P, p.samples) with
  | none => none
  | some (P', samples') => some (PToLP log { p with P := P', samples := samples' })

/-- Method `MaxP`: running maximum from `P[0]`. -/
def MaxP [LinearOrder α] (p : Prob α T) : Option α :=
  match p.P with
  | [] => none
  | P0 :: rest => some (rest.foldl (fun max x => if x > max then x else max) P0)

/-- Method `ModeID`: `max` is set to `P[0]` and is not assigned in the loop;
`modeID` is assigned at every `i ≥ 1` with `P[i] > max`. -/
def ModeID [LinearOrder α] (p : Prob α T) : Option Nat :=
  match p.P with
  | [] => none
  | P0 :: rest =>
    let max := P0
    some ((rest.enumFrom 1).foldl (fun modeID ix => if ix.2 > max then ix.1 else modeID) 0)

end Prob

/-! ### `TemporalData` -/

/-- Class `TemporalDataSample`. -/
structure TemporalDataSample (α : Type) where
  label : String
  time : α
  dimValue : Int
  values : List α

/-- Class `TemporalData`. -/
structure TemporalData (α : Type) where
  refTimes : List Int
  data : List (TemporalDataSample α)
  statistics : List (List (List α))
  dimValue : Int

/-- All entries of a list of optional values, when none is missing. -/
def collect {β : Type} : List (Option β) → Option (List β)
  | [] => some []
  | none :: _ => none
  | some x :: rest =>
    match collect rest with
    | none => none
    | some xs => some (x :: xs)

namespace TemporalData

variable {α : Type}

/-- Inner loop of `Analyze` over the boundaries that remain from index `i` on:
`if(data[n].time>=refTimes[i]){timeID=i+1;}else{break;}`. -/
def Analyze.timeIDLoop [LinearOrderedField α] (time : α) : List Int → Nat → Nat → Nat
  | [], _, timeID => timeID
  | r :: rest, i, timeID =>
    if time ≥ (r : α) then Analyze.timeIDLoop time rest (i + 1) (i + 1) else timeID

/-- Interval id that `Analyze` computes for a sample time. -/
def Analyze.timeID [LinearOrderedField α] (refTimes : List Int) (time : α) : Nat :=
  Analyze.timeIDLoop time refTimes 0 0

/-- Statement `values[timeID].push_back(x)`. -/
def Analyze.push {β : Type} (values : List (List β)) (timeID : Nat) (x : β) :
    Option (List (List β)) :=
  match values[timeID]? with
  | none => none
  | some row => some (values.set timeID (row ++ [x]))

/-- First loop of `Analyze`: the value vectors of the samples, grouped by interval. -/
def Analyze.group [LinearOrderedField α] (refTimes : List Int)
    (data : List (TemporalDataSample α)) : Option (List (List (List α))) :=
  data.foldlM (fun values s => Analyze.push values (Analyze.timeID refTimes s.time) s.values)
    (List.replicate (refTimes.length + 1) [])

/-- Body of the loop over `k` in `Analyze`, for the samples `rows` of one
interval: `statistics[i][k]` is resized to three zeros, `vd` collects the
`k`-th values, then count, mean and standard deviation are stored. -/
def Analyze.cell [LinearOrderedField α] (sqrt : α → α) (rows : List (List α)) (k : Nat) :
    Option (List α) :=
  match collect (rows.map (fun vals => vals[k]?)) with
  | none => none
  | some vd =>
    let count : α := (vd.length : α)
    if count = 0 then some [count, 0, 0]
    else if count = 1 then
      match vd[0]? with
      | none => none
      | some vd0 => some [count, vd0, 0]
    else
      match Average vd, StDev sqrt vd with
      | some ave, some sd => some [count, ave, sd]
      | _, _ => none

/-- Body of the loop over `i` in `Analyze`: `statistics[i].resize(dimValue)`
(a negative `dimValue` is not a size: the call throws) and the loop over `k`. -/
def Analyze.row [LinearOrderedField α] (sqrt : α → α) (dimValue : Int) (rows : List (List α)) :
    Option (List (List α)) :=
  if dimValue < 0 then none
  else collect ((List.range dimValue.toNat).map (Analyze.cell sqrt rows))

/-- Method `Analyze`. -/
def Analyze [LinearOrderedField α] (sqrt : α → α) (td : TemporalData α) :
    Option (TemporalData α) :=
  match Analyze.group td.refTimes td.data with
  | none => none
  | some values =>
    match td.data with
    | [] => none
    | data0 :: _ =>
      let dimValue := data0.dimValue
      match collect (values.map (Analyze.row sqrt dimValue)) with
      | none => none
      | some statistics => some { td with statistics := statistics, dimValue := dimValue }

/-- Specification side: the value vectors of the samples whose interval id is
`i`, in dataset order. -/
def Analyze.bucket [LinearOrderedField α] (refTimes : List Int)
    (data : List (TemporalDataSample α)) (i : Nat) : List (List α) :=
  (data.filter (fun s => decide (Analyze.timeID refTimes s.time = i))).map (fun s => s.values)

/-- Specification side: the `k`-th values of the samples whose interval id is `i`. -/
def Analyze.column [LinearOrderedField α] (refTimes : List Int)
    (data : List (TemporalDataSample α)) (i k : Nat) : List α :=
  (Analyze.bucket refTimes data i).map (fun vals => vals.getD k 0)

/-- A small dataset over the reals: two boundaries, three two-dimensional samples. -/
def Analyze.sampleData : TemporalData ℝ :=
  { refTimes := [1900, 2000], statistics := [], dimValue := 0,
    data := [⟨"a", 1950, 2, [1, 2]⟩, ⟨"b", 1960, 2, [3, 5]⟩, ⟨"c", 2001, 2, [3, 5, 7]⟩] }

end TemporalData

/-! ## Theorems -/

/-! ### Lists, `collect` and `stable_sort` -/

section
variable {β : Type}

theorem stable_sort_perm (comp : β → β → Bool) (l : List β) : (stable_sort comp l).Perm l :=
  List.perm_insertionSort _ l

theorem stable_sort_pairwise (comp : β → β → Bool)
    (htot : ∀ a b, comp b a = false ∨ comp a b = false)
    (htrans : ∀ a b c, comp b a = false → comp c b = false → comp c a = false) (l : List β) :
    (stable_sort comp l).Pairwise (fun a b => comp b a = false) :=
  @List.sorted_insertionSort β (fun a b => comp b a = false) _ ⟨htot⟩ ⟨htrans⟩ l

theorem stable_sort_pair (comp : β → β → Bool)
    {a b : β} {l : List β} (hab : comp b a = false) (h : [a, b].Sublist l) :
    [a, b].Sublist (stable_sort comp l) :=
  List.pair_sublist_insertionSort hab h

end

section
variable {α : Type} [LinearOrder α]

theorem MorePair_eq_false (a b : Pair α) : MorePair b a = false ↔ b.value ≤ a.value := by
  unfold MorePair
  by_cases h : b.value > a.value
  · simp [h]
  · simp [h, not_lt.mp h]

theorem MorePair_total (a b : Pair α) : MorePair b a = false ∨ MorePair a b = false := by
  simp only [MorePair_eq_false]
  exact le_total _ _

theorem MorePair_trans (a b c : Pair α) (h1 : MorePair b a = false) (h2 : MorePair c b = false) :
    MorePair c a = false := by
  simp only [MorePair_eq_false] at *
  exact le_trans h2 h1
end

theorem set_take_drop {β : Type} (new old : List β) (k : Nat) (hn : k < new.length)
    (ho : k < old.length) :
    (new.take k ++ old.drop k).set k new[k] = new.take (k + 1) ++ old.drop (k + 1) := by
  apply List.ext_getElem?
  intro i
  simp only [List.getElem?_set, List.getElem?_append, List.length_take, List.getElem?_take,
    List.getElem?_drop, List.length_append, List.length_drop]
  have h1 : min k new.length = k := by omega
  have h2 : min (k + 1) new.length = k + 1 := by omega
  rw [h1, h2]
  by_cases hik : k = i
  · subst hik
    simp [ho, hn]
  · by_cases hlt : i < k
    · have : i < k + 1 := by omega
      simp [hik, hlt, this]
    · have h3 : ¬ i < k + 1 := by omega
      simp only [hik, hlt, h3, if_false]
      congr 1
      omega

theorem collect_map_some {β : Type} (l : List β) : collect (l.map some) = some l := by
  induction l with
  | nil => rfl
  | cons x xs ih => simp [collect, ih]

theorem collect_eq_some {β : Type} {l : List (Option β)} {r : List β}
    (h : collect l = some r) : l = r.map some := by
  induction l generalizing r with
  | nil => simp [collect] at h; subst h; rfl
  | cons x xs ih =>
    cases x with
    | none => simp [collect] at h
    | some x =>
      simp only [collect] at h
      cases hc : collect xs with
      | none => simp [hc] at h
      | some ys =>
        simp [hc] at h
        subst h
        simp [ih hc]

theorem map_eq_map_some_filterMap {β γ : Type} (f : β → Option γ) (l : List β)
    (h : ∀ x ∈ l, (f x).isSome) : l.map f = (l.filterMap f).map some := by
  induction l with
  | nil => rfl
  | cons x xs ih =>
    have hx := h x (List.mem_cons_self _ _)
    obtain ⟨y, hy⟩ := Option.isSome_iff_exists.mp hx
    have := ih (fun z hz => h z (List.mem_cons_of_mem _ hz))
    simp [List.filterMap_cons, hy, this]

theorem filterMap_eq_of_map_eq {β γ : Type} (f : β → Option γ) (l : List β) (r : List γ)
    (h : l.map f = r.map some) : l.filterMap f = r := by
  induction l generalizing r with
  | nil => cases r <;> simp_all
  | cons x xs ih =>
    cases r with
    | nil => simp at h
    | cons y ys =>
      simp only [List.map_cons, List.cons.injEq] at h
      simp [List.filterMap_cons, h.1, ih ys h.2]

theorem filterMap_zip_map {β γ δ : Type} (f1 : β → Option γ) (f2 : β → δ) (l : List β)
    (h : ∀ x ∈ l, (f1 x).isSome) :
    (l.filterMap f1).zip (l.map f2) = l.filterMap (fun x => (f1 x).map (fun s => (s, f2 x))) := by
  induction l with
  | nil => rfl
  | cons x xs ih =>
    have hx := h x (List.mem_cons_self _ _)
    obtain ⟨y, hy⟩ := Option.isSome_iff_exists.mp hx
    have := ih (fun z hz => h z (List.mem_cons_of_mem _ hz))
    simp [List.filterMap_cons, hy, this]

theorem pair_sublist_of_getElem? {β : Type} {a b : β} :
    ∀ (l : List β) (i j : Nat), i < j → l[i]? = some a → l[j]? = some b → [a, b].Sublist l
  | [], i, _, _, h, _ => by simp at h
  | x :: xs, 0, 0, hij, _, _ => absurd hij (lt_irrefl 0)
  | x :: xs, 0, j + 1, _, ha, hb => by
    simp only [List.getElem?_cons_zero, Option.some.injEq] at ha
    simp only [List.getElem?_cons_succ] at hb
    subst ha
    exact List.Sublist.cons₂ _ (List.singleton_sublist.mpr (List.getElem?_mem hb))
  | x :: xs, i + 1, 0, hij, _, _ => absurd hij (Nat.not_lt_zero _)
  | x :: xs, i + 1, j + 1, hij, ha, hb => by
    simp only [List.getElem?_cons_succ] at ha hb
    exact List.Sublist.cons _ (pair_sublist_of_getElem? xs i j (by omega) ha hb)

theorem getElem?_of_pair_sublist {β : Type} {a b : β} :
    ∀ (l : List β), [a, b].Sublist l → ∃ i j : Nat, i < j ∧ l[i]? = some a ∧ l[j]? = some b
  | [], h => by simp at h
  | x :: xs, h => by
    cases h with
    | cons _ h' =>
      obtain ⟨i, j, hij, ha, hb⟩ := getElem?_of_pair_sublist xs h'
      exact ⟨i + 1, j + 1, by omega, by simpa using ha, by simpa using hb⟩
    | cons₂ _ h' =>
      obtain ⟨j, hj⟩ := List.mem_iff_getElem?.mp (List.singleton_sublist.mp h')
      exact ⟨0, j + 1, by omega, by simp, by simpa using hj⟩

theorem foldl_add_eq_sum {α β : Type} [LinearOrderedField α] (f : β → α) :
    ∀ (l : List β) (a : α), l.foldl (fun sum x => sum + f x) a = a + (l.map f).sum
  | [], a => by simp
  | x :: xs, a => by
    simp only [List.foldl_cons, List.map_cons, List.sum_cons]
    rw [foldl_add_eq_sum f xs (a + f x), add_assoc]

theorem foldl_add_zero {α : Type} [LinearOrderedField α] (l : List α) :
    l.foldl (fun sum x => sum + x) 0 = l.sum := by
  have := foldl_add_eq_sum (fun x : α => x) l 0
  simpa using this

theorem collect_map_of_isSome {β γ : Type} (f : β → Option γ) (l : List β)
    (h : ∀ x ∈ l, (f x).isSome) : collect (l.map f) = some (l.filterMap f) := by
  rw [map_eq_map_some_filterMap f l h, collect_map_some]

theorem Average_eq {α : Type} [LinearOrderedField α] (vd : List α) (h : 0 < vd.length) :
    Average vd = some (vd.sum / (vd.length : α)) := by
  simp only [Average, gt_iff_lt, h, if_true, foldl_add_zero]

theorem StDev_eq {α : Type} [LinearOrderedField α] (sqrt : α → α) (vd : List α)
    (h : 1 < vd.length) :
    StDev sqrt vd = some (sqrt ((vd.map (fun x => (x - vd.sum / (vd.length : α)) ^ 2)).sum
      / ((vd.length - 1 : Nat) : α))) := by
  simp only [StDev, gt_iff_lt, h, if_true, Average_eq vd (by omega), foldl_add_eq_sum, zero_add]

theorem getElem?_of_map_eq_map_some {β γ : Type} {f : β → Option γ} {l : List β} {r : List γ}
    (h : l.map f = r.map some) (k : Nat) (hk : k < l.length) : r[k]? = f l[k] := by
  have h1 := congrArg (fun t => t[k]?) h
  simp only [List.getElem?_map, List.getElem?_eq_getElem hk, Option.map_some'] at h1
  cases hr : r[k]? with
  | none => rw [hr] at h1; simp at h1
  | some y =>
    rw [hr] at h1
    simp only [Option.map_some', Option.some.injEq] at h1
    exact h1.symm

theorem collect_map_spec {β γ : Type} (f : β → Option γ) (l : List β)
    (h : ∀ x ∈ l, (f x).isSome) :
    ∃ r, collect (l.map f) = some r ∧ r.length = l.length ∧
      ∀ (k : Nat) (hk : k < l.length), r[k]? = f l[k] := by
  have hm := map_eq_map_some_filterMap f l h
  refine ⟨l.filterMap f, collect_map_of_isSome f l h, ?_, ?_⟩
  · have := congrArg List.length hm
    simpa using this.symm
  · intro k hk
    exact getElem?_of_map_eq_map_some hm k hk

/-! ### `Prob::Sort` -/

namespace Prob
variable {α T : Type}

theorem Sort_.foldlM_step (tmp : Prob α T) (pairs : List (Pair α)) (newP : List α)
    (newS : List T) (P : List α) (S : List T)
    (hP : P.length = pairs.length) (hS : pairs.length ≤ S.length)
    (hnP : pairs.map (fun pr => tmp.P[pr.ID]?) = newP.map some)
    (hnS : pairs.map (fun pr => tmp.samples[pr.ID]?) = newS.map some) :
    ∀ k, k ≤ pairs.length →
      (List.range k).foldlM (Sort_.step tmp pairs) (P, S)
        = some (newP.take k ++ P.drop k, newS.take k ++ S.drop k) := by
  have hlP : newP.length = pairs.length := by
    have := congrArg List.length hnP
    simpa using this.symm
  have hlS : newS.length = pairs.length := by
    have := congrArg List.length hnS
    simpa using this.symm
  intro k
  induction k with
  | zero => intro _; simp
  | succ k ih =>
    intro hk
    have hk' : k < pairs.length := hk
    rw [List.range_succ, List.foldlM_append, ih (by omega)]
    have e1 : tmp.P[pairs[k].ID]? = some newP[k] := by
      have := congrArg (fun l => l[k]?) hnP
      simpa [List.getElem?_map, List.getElem?_eq_getElem hk',
        List.getElem?_eq_getElem (hlP ▸ hk')] using this
    have e2 : tmp.samples[pairs[k].ID]? = some newS[k] := by
      have := congrArg (fun l => l[k]?) hnS
      simpa [List.getElem?_map, List.getElem?_eq_getElem hk',
        List.getElem?_eq_getElem (hlS ▸ hk')] using this
    have c1 : k < (newP.take k ++ P.drop k).length := by simp; omega
    have c2 : k < (newS.take k ++ S.drop k).length := by simp; omega
    simp only [List.foldlM_cons, List.foldlM_nil, Sort_.step, List.getElem?_eq_getElem hk', e1, e2,
      c1, c2, and_self, if_true, Option.some_bind, Option.bind_eq_bind, bind_pure]
    rw [set_take_drop newP P k (by omega) (by omega), set_take_drop newS S k (by omega) (by omega)]

theorem Sort_.pairs_length (P : List α) : (Sort_.pairs P).length = P.length := by
  simp [Sort_.pairs]

theorem Sort_.pairs_getElem? (P : List α) (k : Nat) :
    (Sort_.pairs P)[k]? = P[k]?.map (fun v => { ID := k, value := v }) := by
  simp only [Sort_.pairs, List.getElem?_map, List.getElem?_enum, Option.map_map]
  rfl

theorem Sort_.mem_pairs {P : List α} {pr : Pair α} (h : pr ∈ Sort_.pairs P) :
    P[pr.ID]? = some pr.value := by
  simp only [Sort_.pairs, List.mem_map] at h
  obtain ⟨iv, hiv, rfl⟩ := h
  exact List.mem_enum_iff_getElem?.mp hiv

theorem Sort_.pairs_map_value (P : List α) : (Sort_.pairs P).map Pair.value = P := by
  simp only [Sort_.pairs, List.map_map]
  exact List.enum_map_snd P

theorem Sort_.pairs_map_ID (P : List α) : (Sort_.pairs P).map Pair.ID = List.range P.length := by
  simp only [Sort_.pairs, List.map_map]
  exact List.enum_map_fst P

theorem Sort_.pairs_zip (P : List α) (S : List T) (h : P.length = S.length) :
    (Sort_.pairs P).filterMap (fun pr => (S[pr.ID]?).map (fun s => (s, pr.value))) = S.zip P := by
  apply filterMap_eq_of_map_eq
  apply List.ext_getElem?
  intro k
  simp only [List.getElem?_map, Sort_.pairs_getElem?]
  by_cases hk : k < P.length
  · have hk2 : k < S.length := h ▸ hk
    have hk3 : k < (S.zip P).length := by simp; omega
    simp [List.getElem?_eq_getElem hk, List.getElem?_eq_getElem hk2, List.getElem?_eq_getElem hk3]
  · have hk3 : (S.zip P).length ≤ k := by simp; omega
    simp [List.getElem?_eq_none (not_lt.mp hk), List.getElem?_eq_none hk3]

theorem Sort_.sorted_perm [LinearOrder α] (P : List α) :
    (Sort_.sorted P).Perm (Sort_.pairs P) :=
  stable_sort_perm _ _

theorem Sort_.sorted_length [LinearOrder α] (P : List α) :
    (Sort_.sorted P).length = P.length := by
  rw [(Sort_.sorted_perm P).length_eq, Sort_.pairs_length]

theorem Sort_.mem_sorted [LinearOrder α] {P : List α} {pr : Pair α} (h : pr ∈ Sort_.sorted P) :
    P[pr.ID]? = some pr.value :=
  Sort_.mem_pairs ((Sort_.sorted_perm P).mem_iff.mp h)

theorem Sort_.lookup_isSome [LinearOrder α] (P : List α) (S : List T)
    (hlen : P.length ≤ S.length) :
    ∀ pr ∈ Sort_.sorted P, (S[pr.ID]?).isSome := by
  intro pr hpr
  have h1 := Sort_.mem_sorted hpr
  have h2 : pr.ID < P.length := by
    by_contra hc
    rw [List.getElem?_eq_none (not_lt.mp hc)] at h1
    exact Option.noConfusion h1
  rw [List.getElem?_eq_getElem (lt_of_lt_of_le h2 hlen)]
  rfl

theorem Sort_.eq_some [LinearOrder α] (log : α → α) (p : Prob α T)
    (hlen : p.P.length ≤ p.samples.length) :
    Sort_ log p = some
      { P := (Sort_.sorted p.P).map Pair.value
        LP := ((Sort_.sorted p.P).map Pair.value).map log
        samples := (Sort_.sorted p.P).filterMap (fun pr => p.samples[pr.ID]?)
          ++ p.samples.drop p.P.length } := by
  have hl := Sort_.sorted_length p.P
  have hP : (Sort_.sorted p.P).map (fun pr => p.P[pr.ID]?)
      = ((Sort_.sorted p.P).map Pair.value).map some := by
    rw [List.map_map]
    exact List.map_congr_left (fun pr hpr => Sort_.mem_sorted hpr)
  have hS := map_eq_map_some_filterMap (fun pr : Pair α => p.samples[pr.ID]?) _
    (Sort_.lookup_isSome p.P p.samples hlen)
  have hloop := Sort_.foldlM_step p (Sort_.sorted p.P) _ _ p.P p.samples hl.symm
    (by rw [hl]; exact hlen) hP hS (Sort_.sorted p.P).length (le_refl _)
  have hSl : ((Sort_.sorted p.P).filterMap (fun pr => p.samples[pr.ID]?)).length
      = (Sort_.sorted p.P).length := by
    have := congrArg List.length hS
    simpa using this.symm
  rw [List.take_of_length_le (by simp), List.take_of_length_le (by rw [hSl]),
    List.drop_of_length_le (by omega), hl] at hloop
  simp only [Sort_, hloop, PToLP, List.append_nil]

theorem Sort_.sorted_pairwise [LinearOrder α] (P : List α) :
    ((Sort_.sorted P).map Pair.value).Pairwise (fun x y => x ≥ y) := by
  rw [List.pairwise_map]
  refine (stable_sort_pairwise MorePair MorePair_total MorePair_trans (Sort_.pairs P)).imp ?_
  intro a b h
  exact (MorePair_eq_false a b).mp h

theorem Sort_.order_perm [LinearOrder α] (P : List α) :
    (Sort_.order P).Perm (List.range P.length) := by
  rw [← Sort_.pairs_map_ID]
  exact (Sort_.sorted_perm P).map _

/-- C1. `Prob::Sort` on a distribution with `len(P) == len(samples)` returns; the
`(samples[i], P[i])` pairs of the result are a permutation of those before the
call, `P` is non-increasing (pairwise, hence at every adjacent `i`), and
`LP[i] == log(P[i])` for every `i`. -/
theorem Sort_descending_perm [LinearOrder α] (log : α → α) (p : Prob α T)
    (hlen : p.P.length = p.samples.length) :
    ∃ q, Sort_ log p = some q ∧
      (q.samples.zip q.P).Perm (p.samples.zip p.P) ∧
      q.P.length = p.P.length ∧ q.samples.length = p.samples.length ∧
      q.P.Pairwise (fun x y => x ≥ y) ∧
      (∀ i, i + 1 < q.P.length → ∃ x y, q.P[i]? = some x ∧ q.P[i + 1]? = some y ∧ x ≥ y) ∧
      q.LP = q.P.map log ∧
      (∀ i, i < q.P.length → ∃ x, q.P[i]? = some x ∧ q.LP[i]? = some (log x)) := by
  refine ⟨_, Sort_.eq_some log p (le_of_eq hlen), ?_⟩
  have hdrop : p.samples.drop p.P.length = [] := List.drop_of_length_le (by omega)
  have hpw := Sort_.sorted_pairwise p.P
  simp only [hdrop, List.append_nil]
  have hzip : (((Sort_.sorted p.P).filterMap (fun pr => p.samples[pr.ID]?)).zip
      ((Sort_.sorted p.P).map Pair.value)).Perm (p.samples.zip p.P) := by
    rw [filterMap_zip_map _ _ _ (Sort_.lookup_isSome p.P p.samples (le_of_eq hlen)),
      ← Sort_.pairs_zip p.P p.samples hlen]
    exact (Sort_.sorted_perm p.P).filterMap _
  have hPl : ((Sort_.sorted p.P).map Pair.value).length = p.P.length := by
    simp [Sort_.sorted_length]
  have hSl : ((Sort_.sorted p.P).filterMap (fun pr => p.samples[pr.ID]?)).length
      = p.samples.length := by
    have := congrArg List.length (map_eq_map_some_filterMap
      (fun pr : Pair α => p.samples[pr.ID]?) _ (Sort_.lookup_isSome p.P p.samples (le_of_eq hlen)))
    simp only [List.length_map] at this
    rw [← this, Sort_.sorted_length, hlen]
  refine ⟨hzip, hPl, hSl, hpw, ?_, trivial, ?_⟩
  · intro i hi
    have hi0 : i < ((Sort_.sorted p.P).map Pair.value).length := by omega
    refine ⟨_, _, List.getElem?_eq_getElem hi0, List.getElem?_eq_getElem hi, ?_⟩
    exact List.pairwise_iff_getElem.mp hpw i (i + 1) hi0 hi (Nat.lt_succ_self i)
  · intro i hi
    refine ⟨_, List.getElem?_eq_getElem hi, ?_⟩
    rw [List.getElem?_map, List.getElem?_eq_getElem hi]
    rfl

theorem Sort_descending_perm_witness :
    ([0.2, 0.5, 0.3] : List ℝ).length = ["a", "b", "c"].length ∧
    Sort_ Real.log ({ P := [0.2, 0.5, 0.3], LP := [], samples := ["a", "b", "c"] } : Prob ℝ String)
      = some { P := [0.5, 0.3, 0.2], LP := [Real.log 0.5, Real.log 0.3, Real.log 0.2],
               samples := ["b", "c", "a"] } ∧
    ∃ q, Sort_ Real.log ({ P := [0.2, 0.5, 0.3], LP := [], samples := ["a", "b", "c"] } :
        Prob ℝ String) = some q ∧
      (q.samples.zip q.P).Perm (["a", "b", "c"].zip [0.2, 0.5, 0.3]) ∧
      q.P.length = 3 ∧ q.samples.length = 3 ∧
      q.P.Pairwise (fun x y => x ≥ y) ∧
      (∀ i, i + 1 < q.P.length → ∃ x y, q.P[i]? = some x ∧ q.P[i + 1]? = some y ∧ x ≥ y) ∧
      q.LP = q.P.map Real.log ∧
      (∀ i, i < q.P.length → ∃ x, q.P[i]? = some x ∧ q.LP[i]? = some (Real.log x)) := by
  refine ⟨rfl, ?_, Sort_descending_perm Real.log
    ({ P := [0.2, 0.5, 0.3], LP := [], samples := ["a", "b", "c"] } : Prob ℝ String) rfl⟩
  norm_num [Sort_, Sort_.sorted, stable_sort, Sort_.pairs, List.enum, List.enumFrom, MorePair,
    List.insertionSort, List.orderedInsert, Sort_.step, List.range, List.range.loop, PToLP]

/-- C2. `Prob::Sort` is stable.  `Sort_.order p.P` lists, for each position of
the result, the original position of the outcome placed there (each original
position once); for original positions `i < j` with `P[i] == P[j]`, position
`i` occurs in it before position `j`, so the outcome that was at `i` precedes
the one that was at `j` after the call. -/
theorem Sort_stable [LinearOrder α] (log : α → α) (p : Prob α T)
    (hlen : p.P.length ≤ p.samples.length) (i j : Nat) (hij : i < j) (hj : j < p.P.length)
    (heq : p.P[i]? = p.P[j]?) :
    ∃ q, Sort_ log p = some q ∧
      (Sort_.order p.P).Perm (List.range p.P.length) ∧
      (∀ k o : Nat, (Sort_.order p.P)[k]? = some o →
        q.P[k]? = p.P[o]? ∧ q.samples[k]? = p.samples[o]?) ∧
      ∃ a b : Nat, a < b ∧ (Sort_.order p.P)[a]? = some i ∧ (Sort_.order p.P)[b]? = some j := by
  refine ⟨_, Sort_.eq_some log p hlen, Sort_.order_perm p.P, ?_, ?_⟩
  · intro k o hk
    simp only [Sort_.order, List.getElem?_map, Option.map_eq_some'] at hk
    obtain ⟨pr, hpr, rfl⟩ := hk
    have hmem := List.getElem?_mem hpr
    constructor
    · simp only [List.getElem?_map, hpr, Option.map_some']
      exact (Sort_.mem_sorted hmem).symm
    · have hS := map_eq_map_some_filterMap (fun pr : Pair α => p.samples[pr.ID]?) _
        (Sort_.lookup_isSome p.P p.samples hlen)
      have hk' := congrArg (fun l => l[k]?) hS
      simp only [List.getElem?_map, hpr, Option.map_some'] at hk'
      have hklt : k < ((Sort_.sorted p.P).filterMap (fun pr => p.samples[pr.ID]?)).length := by
        by_contra hc
        rw [List.getElem?_eq_none (not_lt.mp hc)] at hk'
        simp at hk'
      rw [List.getElem?_append_left hklt]
      rw [List.getElem?_eq_getElem hklt] at hk' ⊢
      simp only [Option.map_some', Option.some.injEq] at hk'
      exact hk'.symm
  · have hi : i < p.P.length := lt_trans hij hj
    have hpi : (Sort_.pairs p.P)[i]? = some { ID := i, value := p.P[i] } := by
      rw [Sort_.pairs_getElem?, List.getElem?_eq_getElem hi]; rfl
    have hpj : (Sort_.pairs p.P)[j]? = some { ID := j, value := p.P[j] } := by
      rw [Sort_.pairs_getElem?, List.getElem?_eq_getElem hj]; rfl
    have hsub := pair_sublist_of_getElem? (Sort_.pairs p.P) i j hij hpi hpj
    have hval : p.P[j] ≤ p.P[i] := by
      rw [List.getElem?_eq_getElem hi, List.getElem?_eq_getElem hj, Option.some.injEq] at heq
      exact le_of_eq heq.symm
    have hst : [({ ID := i, value := p.P[i] } : Pair α), { ID := j, value := p.P[j] }].Sublist
        (Sort_.sorted p.P) :=
      stable_sort_pair MorePair ((MorePair_eq_false _ _).mpr hval) hsub
    have hord := hst.map Pair.ID
    exact getElem?_of_pair_sublist (Sort_.order p.P) hord

theorem Sort_stable_witness :
    (1 < 2 ∧ 2 < ([0.2, 0.5, 0.5, 0.2] : List ℝ).length ∧
      ([0.2, 0.5, 0.5, 0.2] : List ℝ)[1]? = ([0.2, 0.5, 0.5, 0.2] : List ℝ)[2]?) ∧
    ∃ q, Sort_ Real.log
        ({ P := [0.2, 0.5, 0.5, 0.2], LP := [], samples := ["a", "b", "c", "d"] } : Prob ℝ String)
        = some q ∧
      (Sort_.order ([0.2, 0.5, 0.5, 0.2] : List ℝ)).Perm (List.range 4) ∧
      (∀ k o : Nat, (Sort_.order ([0.2, 0.5, 0.5, 0.2] : List ℝ))[k]? = some o →
        q.P[k]? = ([0.2, 0.5, 0.5, 0.2] : List ℝ)[o]? ∧
        q.samples[k]? = ["a", "b", "c", "d"][o]?) ∧
      ∃ a b : Nat, a < b ∧ (Sort_.order ([0.2, 0.5, 0.5, 0.2] : List ℝ))[a]? = some 1 ∧
        (Sort_.order ([0.2, 0.5, 0.5, 0.2] : List ℝ))[b]? = some 2 :=
  ⟨⟨by decide, by simp, by simp⟩,
    Sort_stable Real.log
      ({ P := [0.2, 0.5, 0.5, 0.2], LP := [], samples := ["a", "b", "c", "d"] } : Prob ℝ String)
      (by simp) 1 2 (by decide) (by simp) (by simp)⟩

end Prob

/-! ### `TemporalData::Analyze` -/

namespace TemporalData
variable {α : Type}

theorem Analyze.timeIDLoop_spec [LinearOrderedField α] (t : α) :
    ∀ (rest : List Int) (i : Nat),
      i ≤ Analyze.timeIDLoop t rest i i ∧
      Analyze.timeIDLoop t rest i i ≤ i + rest.length ∧
      (∀ (k : Nat) (r : Int), i + k < Analyze.timeIDLoop t rest i i → rest[k]? = some r →
        (r : α) ≤ t) ∧
      (∀ r : Int, rest[Analyze.timeIDLoop t rest i i - i]? = some r → t < (r : α))
  | [], i => by simp [Analyze.timeIDLoop]
  | r :: rest, i => by
    by_cases h : t ≥ (r : α)
    · obtain ⟨h1, h2, h3, h4⟩ := Analyze.timeIDLoop_spec t rest (i + 1)
      simp only [Analyze.timeIDLoop, h, if_true]
      refine ⟨by omega, by simp only [List.length_cons]; omega, ?_, ?_⟩
      · intro k r' hk hr
        cases k with
        | zero =>
          simp only [List.getElem?_cons_zero, Option.some.injEq] at hr
          subst hr
          exact h
        | succ k =>
          simp only [List.getElem?_cons_succ] at hr
          exact h3 k r' (by omega) hr
      · intro r' hr
        have e : Analyze.timeIDLoop t rest (i + 1) (i + 1) - i
            = (Analyze.timeIDLoop t rest (i + 1) (i + 1) - (i + 1)) + 1 := by omega
        rw [e, List.getElem?_cons_succ] at hr
        exact h4 r' hr
    · simp only [Analyze.timeIDLoop, h, if_false]
      refine ⟨le_refl _, by omega, ?_, ?_⟩
      · intro k r' hk
        omega
      · intro r' hr
        simp only [Nat.sub_self, List.getElem?_cons_zero, Option.some.injEq] at hr
        subst hr
        exact not_le.mp h

theorem Analyze.timeID_le [LinearOrderedField α] (refTimes : List Int) (t : α) :
    Analyze.timeID refTimes t ≤ refTimes.length := by
  have := (Analyze.timeIDLoop_spec t refTimes 0).2.1
  simpa [Analyze.timeID] using this

theorem Analyze.foldlM_push [LinearOrderedField α] (refTimes : List Int) :
    ∀ (data : List (TemporalDataSample α)) (values : List (List (List α))),
      values.length = refTimes.length + 1 →
      data.foldlM
        (fun values s => Analyze.push values (Analyze.timeID refTimes s.time) s.values) values
      = some (values.enum.map (fun ir => ir.2 ++ Analyze.bucket refTimes data ir.1))
  | [], values, _ => by
    simp only [List.foldlM_nil, Analyze.bucket, List.filter_nil, List.map_nil, List.append_nil]
    rw [List.enum_map_snd]
    rfl
  | s :: data, values, hlen => by
    have hid : Analyze.timeID refTimes s.time < values.length := by
      have := Analyze.timeID_le refTimes s.time
      omega
    have hpush : Analyze.push values (Analyze.timeID refTimes s.time) s.values
        = some (values.set (Analyze.timeID refTimes s.time)
            (values[Analyze.timeID refTimes s.time] ++ [s.values])) := by
      simp only [Analyze.push, List.getElem?_eq_getElem hid]
    rw [List.foldlM_cons, hpush]
    have ih := Analyze.foldlM_push refTimes data
      (values.set (Analyze.timeID refTimes s.time)
        (values[Analyze.timeID refTimes s.time] ++ [s.values])) (by simpa using hlen)
    simp only [Option.some_bind, Option.bind_eq_bind] at ih ⊢
    rw [ih]
    congr 1
    apply List.ext_getElem?
    intro i
    simp only [List.getElem?_map, List.getElem?_enum, List.getElem?_set, Option.map_map]
    by_cases hi : Analyze.timeID refTimes s.time = i
    · subst hi
      simp [hid, Analyze.bucket, List.filter_cons]
    · by_cases hil : i < values.length
      · simp [hi, hil, Analyze.bucket, List.filter_cons]
      · simp [hi, List.getElem?_eq_none (not_lt.mp hil)]

theorem Analyze.group_eq [LinearOrderedField α] (refTimes : List Int)
    (data : List (TemporalDataSample α)) :
    Analyze.group refTimes data
      = some ((List.range (refTimes.length + 1)).map (Analyze.bucket refTimes data)) := by
  rw [Analyze.group, Analyze.foldlM_push refTimes data _ (by simp)]
  congr 1
  apply List.ext_getElem?
  intro i
  simp only [List.getElem?_map, List.getElem?_enum, Option.map_map, List.getElem?_range]
  by_cases hi : i < refTimes.length + 1
  · simp [List.getElem?_eq_getElem, hi, List.getElem?_range]
  · simp [List.getElem?_eq_none, not_lt.mp hi, List.getElem?_range, hi]

theorem Analyze.cell_eq [LinearOrderedField α] (sqrt : α → α) (rows : List (List α)) (k : Nat)
    (hk : ∀ vals ∈ rows, k < vals.length) :
    ∃ mean sd, Analyze.cell sqrt rows k = some [(rows.length : α), mean, sd] ∧
      (rows.length = 0 → mean = 0 ∧ sd = 0) ∧
      (rows.length = 1 → sd = 0 ∧ ∃ vals, rows = [vals] ∧ vals[k]? = some mean) ∧
      (2 ≤ rows.length →
        mean = (rows.map (fun vals => vals.getD k 0)).sum / (rows.length : α) ∧
        sd = sqrt (((rows.map (fun vals => vals.getD k 0)).map (fun x => (x - mean) ^ 2)).sum
          / ((rows.length - 1 : Nat) : α))) := by
  have hcol : collect (rows.map (fun vals => vals[k]?))
      = some (rows.map (fun vals => vals.getD k 0)) := by
    have : rows.map (fun vals => vals[k]?) = (rows.map (fun vals => vals.getD k 0)).map some := by
      rw [List.map_map]
      apply List.map_congr_left
      intro vals hv
      simp [List.getD_eq_getElem?_getD, List.getElem?_eq_getElem (hk vals hv)]
    rw [this, collect_map_some]
  simp only [Analyze.cell, hcol, List.length_map]
  rcases Nat.lt_trichotomy rows.length 1 with h0 | h1 | h2
  · have h0' : rows.length = 0 := by omega
    refine ⟨0, 0, ?_, ?_, ?_, ?_⟩
    · simp [h0']
    · intro _; exact ⟨rfl, rfl⟩
    · intro h; omega
    · intro h; omega
  · obtain ⟨vals, rfl⟩ := List.length_eq_one.mp h1
    have hv : k < vals.length := hk vals (List.mem_singleton_self _)
    refine ⟨vals[k], 0, ?_, ?_, ?_, ?_⟩
    · simp [List.getD_eq_getElem?_getD, List.getElem?_eq_getElem hv]
    · intro h; simp at h
    · intro _; exact ⟨rfl, vals, rfl, List.getElem?_eq_getElem hv⟩
    · intro h; simp at h
  · have hne0 : ((rows.length : α) = 0) = False := by
      simp only [Nat.cast_eq_zero, eq_iff_iff, iff_false]; omega
    have hne1 : ((rows.length : α) = 1) = False := by
      simp only [Nat.cast_eq_one, eq_iff_iff, iff_false]; omega
    refine ⟨(rows.map (fun vals => vals.getD k 0)).sum / (rows.length : α),
      sqrt (((rows.map (fun vals => vals.getD k 0)).map (fun x =>
        (x - (rows.map (fun vals => vals.getD k 0)).sum / (rows.length : α)) ^ 2)).sum
          / ((rows.length - 1 : Nat) : α)), ?_, ?_, ?_, ?_⟩
    · simp only [hne0, hne1, if_false]
      rw [Average_eq _ (by simp; omega), StDev_eq sqrt _ (by simp; omega)]
      simp only [List.length_map]
    · intro h; omega
    · intro h; omega
    · intro _; exact ⟨rfl, rfl⟩

theorem Analyze.mem_bucket [LinearOrderedField α] {refTimes : List Int}
    {data : List (TemporalDataSample α)} {i : Nat} {vals : List α}
    (h : vals ∈ Analyze.bucket refTimes data i) : ∃ s ∈ data, s.values = vals := by
  simp only [Analyze.bucket, List.mem_map, List.mem_filter] at h
  obtain ⟨s, ⟨hs, _⟩, rfl⟩ := h
  exact ⟨s, hs, rfl⟩

theorem Analyze.row_spec [LinearOrderedField α] (sqrt : α → α) (dimValue : Int)
    (rows : List (List α)) (hdim : 0 ≤ dimValue)
    (hrows : ∀ vals ∈ rows, dimValue ≤ (vals.length : Int)) :
    ∃ row, Analyze.row sqrt dimValue rows = some row ∧ (row.length : Int) = dimValue ∧
      ∀ k : Nat, k < row.length → row[k]? = Analyze.cell sqrt rows k ∧
        ∀ vals ∈ rows, k < vals.length := by
  have hcell : ∀ k ∈ List.range dimValue.toNat, (Analyze.cell sqrt rows k).isSome := by
    intro k hk
    have hk' : k < dimValue.toNat := List.mem_range.mp hk
    obtain ⟨mean, sd, hc, _⟩ := Analyze.cell_eq sqrt rows k (by
      intro vals hv
      have := hrows vals hv
      omega)
    rw [hc]; rfl
  obtain ⟨row, h1, h2, h3⟩ := collect_map_spec (Analyze.cell sqrt rows) _ hcell
  refine ⟨row, ?_, ?_, ?_⟩
  · simp only [Analyze.row, not_lt.mpr hdim, if_false, h1]
  · rw [h2, List.length_range]; omega
  · intro k hk
    rw [h2] at hk
    have := h3 k hk
    rw [List.getElem_range] at this
    refine ⟨this, ?_⟩
    intro vals hv
    have := hrows vals hv
    rw [List.length_range] at hk
    omega

/-- C3. Interval assignment of `TemporalData::Analyze`: the interval id computed
for a sample time `t` is at most `refTimes.size()`, every boundary before it
satisfies `refTimes[i] <= t` and the boundary at it, if there is one, satisfies
`t < refTimes[id]`; so it is the smallest index `i` with `t < refTimes[i]`, and
`refTimes.size()` when there is none.  The grouping loop stores the values of
each sample in the row of that id.  With boundaries `[1900,2000]` the times
1899, 1950 and 2000 get the ids 0, 1 and 2. -/
theorem Analyze_timeID_smallest [LinearOrderedField α] :
    (∀ (refTimes : List Int) (t : α),
      Analyze.timeID refTimes t ≤ refTimes.length ∧
      (∀ (i : Nat) (r : Int), i < Analyze.timeID refTimes t → refTimes[i]? = some r →
        ¬ t < (r : α)) ∧
      (∀ r : Int, refTimes[Analyze.timeID refTimes t]? = some r → t < (r : α)) ∧
      ((∀ (i : Nat) (r : Int), refTimes[i]? = some r → ¬ t < (r : α)) →
        Analyze.timeID refTimes t = refTimes.length)) ∧
    (∀ (refTimes : List Int) (data : List (TemporalDataSample α)),
      Analyze.group refTimes data = some ((List.range (refTimes.length + 1)).map (fun i =>
        (data.filter (fun s => decide (Analyze.timeID refTimes s.time = i))).map
          (fun s => s.values)))) ∧
    Analyze.timeID [1900, 2000] (1899 : α) = 0 ∧
    Analyze.timeID [1900, 2000] (1950 : α) = 1 ∧
    Analyze.timeID [1900, 2000] (2000 : α) = 2 := by
  refine ⟨?_, ?_, ?_, ?_, ?_⟩
  · intro refTimes t
    obtain ⟨_, h2, h3, h4⟩ := Analyze.timeIDLoop_spec t refTimes 0
    simp only [Nat.zero_add, Nat.sub_zero] at h2 h3 h4
    refine ⟨h2, fun i r hi hr => not_lt.mpr (h3 i r hi hr), h4, ?_⟩
    intro hall
    by_contra hne
    have hlt : Analyze.timeID refTimes t < refTimes.length := lt_of_le_of_ne h2 hne
    exact hall _ _ (List.getElem?_eq_getElem hlt) (h4 _ (List.getElem?_eq_getElem hlt))
  · intro refTimes data
    exact Analyze.group_eq refTimes data
  · norm_num [Analyze.timeID, Analyze.timeIDLoop]
  · norm_num [Analyze.timeID, Analyze.timeIDLoop]
  · norm_num [Analyze.timeID, Analyze.timeIDLoop]

/-- C4 (amended). Statistics of `TemporalData::Analyze`: for a non-empty dataset
whose first sample has a non-negative `dimValue` and in which every sample
carries at least that many values, `Analyze` returns; the table has
`refTimes.size()+1` rows of `dimValue` entries of three numbers
`[count, mean, stdev]`; `count` is the number of samples assigned to the
interval; for count 0 mean and stdev are 0; for count 1 the mean is that
sample's `k`-th value and the stdev is 0; otherwise the mean is the arithmetic
mean and the stdev is `pow(·,0.5)` of the sum of squared deviations divided by
`count-1`. -/
theorem Analyze_statistics [LinearOrderedField α] (sqrt : α → α) (td : TemporalData α)
    (data0 : TemporalDataSample α) (rest : List (TemporalDataSample α))
    (hdata : td.data = data0 :: rest)
    (hdim : 0 ≤ data0.dimValue)
    (hvals : ∀ s ∈ td.data, data0.dimValue ≤ (s.values.length : Int)) :
    ∃ td', Analyze sqrt td = some td' ∧
      td'.refTimes = td.refTimes ∧ td'.data = td.data ∧ td'.dimValue = data0.dimValue ∧
      td'.statistics.length = td.refTimes.length + 1 ∧
      ∀ i : Nat, i < td.refTimes.length + 1 → ∃ row, td'.statistics[i]? = some row ∧
        (row.length : Int) = data0.dimValue ∧
        ∀ k : Nat, k < row.length → ∃ mean sd,
          row[k]? = some [((Analyze.bucket td.refTimes td.data i).length : α), mean, sd] ∧
          ((Analyze.bucket td.refTimes td.data i).length = 0 → mean = 0 ∧ sd = 0) ∧
          ((Analyze.bucket td.refTimes td.data i).length = 1 →
            sd = 0 ∧ ∃ vals, Analyze.bucket td.refTimes td.data i = [vals] ∧
              vals[k]? = some mean) ∧
          (2 ≤ (Analyze.bucket td.refTimes td.data i).length →
            mean = (Analyze.column td.refTimes td.data i k).sum
              / ((Analyze.bucket td.refTimes td.data i).length : α) ∧
            sd = sqrt (((Analyze.column td.refTimes td.data i k).map
                (fun x => (x - mean) ^ 2)).sum
              / (((Analyze.bucket td.refTimes td.data i).length - 1 : Nat) : α))) := by
  have hrows : ∀ rows ∈ (List.range (td.refTimes.length + 1)).map
      (Analyze.bucket td.refTimes td.data),
      ∀ vals ∈ rows, data0.dimValue ≤ (vals.length : Int) := by
    intro rows hr vals hv
    simp only [List.mem_map, List.mem_range] at hr
    obtain ⟨i, _, rfl⟩ := hr
    obtain ⟨s, hs, rfl⟩ := Analyze.mem_bucket hv
    exact hvals s hs
  have hsome : ∀ rows ∈ (List.range (td.refTimes.length + 1)).map
      (Analyze.bucket td.refTimes td.data),
      (Analyze.row sqrt data0.dimValue rows).isSome := by
    intro rows hr
    obtain ⟨row, h, _⟩ := Analyze.row_spec sqrt data0.dimValue rows hdim (hrows rows hr)
    rw [h]; rfl
  obtain ⟨stats, hst, hlen, hget⟩ := collect_map_spec (Analyze.row sqrt data0.dimValue) _ hsome
  simp only [List.length_map, List.length_range] at hlen hget
  refine ⟨{ td with statistics := stats, dimValue := data0.dimValue }, ?_, rfl, rfl, rfl, hlen, ?_⟩
  · have hst2 := hst
    rw [hdata] at hst2
    simp only [Analyze, Analyze.group_eq, hdata, hst2]
  · intro i hi
    have hgi := hget i hi
    simp only [List.getElem_map, List.getElem_range] at hgi
    obtain ⟨row, hrow, hrl, hcells⟩ := Analyze.row_spec sqrt data0.dimValue
      (Analyze.bucket td.refTimes td.data i) hdim
      (hrows _ (List.mem_map.mpr ⟨i, List.mem_range.mpr hi, rfl⟩))
    refine ⟨row, by rw [hgi, hrow], hrl, ?_⟩
    intro k hk
    obtain ⟨hck, hkv⟩ := hcells k hk
    obtain ⟨mean, sd, h1, h2, h3, h4⟩ := Analyze.cell_eq sqrt
      (Analyze.bucket td.refTimes td.data i) k hkv
    exact ⟨mean, sd, by rw [hck, h1], h2, h3, h4⟩

theorem Analyze_statistics_witness :
    (Analyze.sampleData.data = ⟨"a", 1950, 2, [1, 2]⟩ :: [⟨"b", 1960, 2, [3, 5]⟩,
        ⟨"c", 2001, 2, [3, 5, 7]⟩] ∧
      (0 : Int) ≤ 2 ∧
      ∀ s ∈ Analyze.sampleData.data, (2 : Int) ≤ (s.values.length : Int)) ∧
    ∃ td', Analyze Real.sqrt Analyze.sampleData = some td' ∧
      td'.refTimes = Analyze.sampleData.refTimes ∧ td'.data = Analyze.sampleData.data ∧
      td'.dimValue = 2 ∧
      td'.statistics.length = Analyze.sampleData.refTimes.length + 1 ∧
      ∀ i : Nat, i < Analyze.sampleData.refTimes.length + 1 → ∃ row,
        td'.statistics[i]? = some row ∧ (row.length : Int) = 2 ∧
        ∀ k : Nat, k < row.length → ∃ mean sd,
          row[k]? = some [((Analyze.bucket Analyze.sampleData.refTimes
            Analyze.sampleData.data i).length : ℝ), mean, sd] ∧
          ((Analyze.bucket Analyze.sampleData.refTimes Analyze.sampleData.data i).length = 0 →
            mean = 0 ∧ sd = 0) ∧
          ((Analyze.bucket Analyze.sampleData.refTimes Analyze.sampleData.data i).length = 1 →
            sd = 0 ∧ ∃ vals,
              Analyze.bucket Analyze.sampleData.refTimes Analyze.sampleData.data i = [vals] ∧
              vals[k]? = some mean) ∧
          (2 ≤ (Analyze.bucket Analyze.sampleData.refTimes Analyze.sampleData.data i).length →
            mean = (Analyze.column Analyze.sampleData.refTimes Analyze.sampleData.data i k).sum
              / ((Analyze.bucket Analyze.sampleData.refTimes
                  Analyze.sampleData.data i).length : ℝ) ∧
            sd = Real.sqrt (((Analyze.column Analyze.sampleData.refTimes
                Analyze.sampleData.data i k).map (fun x => (x - mean) ^ 2)).sum
              / (((Analyze.bucket Analyze.sampleData.refTimes
                  Analyze.sampleData.data i).length - 1 : Nat) : ℝ))) := by
  have hv : ∀ s ∈ Analyze.sampleData.data, (2 : Int) ≤ (s.values.length : Int) := by
    intro s hs
    simp only [Analyze.sampleData, List.mem_cons, List.mem_singleton, List.not_mem_nil,
      or_false] at hs
    rcases hs with rfl | rfl | rfl <;> decide
  exact ⟨⟨rfl, by decide, hv⟩,
    Analyze_statistics Real.sqrt Analyze.sampleData ⟨"a", 1950, 2, [1, 2]⟩
      [⟨"b", 1960, 2, [3, 5]⟩, ⟨"c", 2001, 2, [3, 5, 7]⟩] rfl (by decide) hv⟩

/-- C4 (as stated) fails for a negative `dimValue`: the dataset is non-empty and
its only sample carries at least `dimValue = -1` values, yet
`statistics[0].resize(dimValue)` throws and `Analyze` produces no table. -/
theorem Analyze_negative_dimValue :
    (∀ s ∈ ([⟨"x", 0, -1, []⟩] : List (TemporalDataSample ℝ)),
      (-1 : Int) ≤ (s.values.length : Int)) ∧
    Analyze Real.sqrt
      ({ refTimes := [], data := [⟨"x", 0, -1, []⟩], statistics := [], dimValue := 0 } :
        TemporalData ℝ) = none := by
  constructor
  · intro s hs
    simp only [List.mem_singleton] at hs
    subst hs
    decide
  · simp [Analyze, Analyze.group, Analyze.push, Analyze.timeID, Analyze.timeIDLoop, Analyze.row,
      collect]

end TemporalData

/-! ### `SampleDistr` -/

section SampleDistrProofs

variable {α : Type}

theorem sum_take_succ [LinearOrderedField α] (p : List α) (i : Nat) (pi : α)
    (h : p[i]? = some pi) : (p.take (i + 1)).sum = (p.take i).sum + pi := by
  have hi : i < p.length := by
    by_contra hc
    rw [List.getElem?_eq_none (not_lt.mp hc)] at h
    exact Option.noConfusion h
  rw [List.getElem?_eq_getElem hi, Option.some.injEq] at h
  rw [List.take_succ, List.getElem?_eq_getElem hi, List.sum_append, ← h]
  simp

theorem SampleDistr.loop_spec [LinearOrderedField α] (p : List α) :
    ∀ (n i : Nat) (val : α), i + n + 1 = p.length →
      ∃ r, SampleDistr.loop p n i val = some r ∧ i ≤ r ∧ r ≤ p.length - 1 ∧
        (∀ j, i ≤ j → j < r → ¬ (val + (p.take i).sum < (p.take (j + 1)).sum)) ∧
        (r < p.length - 1 → val + (p.take i).sum < (p.take (r + 1)).sum)
  | 0, i, val, h => by
    refine ⟨p.length - 1, rfl, by omega, le_refl _, ?_, ?_⟩
    · intro j h1 h2; omega
    · intro h; omega
  | n + 1, i, val, h => by
    have hi : i < p.length := by omega
    have hpi : p[i]? = some p[i] := List.getElem?_eq_getElem hi
    have hsum := sum_take_succ p i p[i] hpi
    simp only [SampleDistr.loop, hpi]
    by_cases hlt : val < p[i]
    · simp only [hlt, if_true]
      refine ⟨i, rfl, le_refl _, by omega, ?_, ?_⟩
      · intro j h1 h2; omega
      · intro _
        rw [hsum]
        linarith
    · simp only [hlt, if_false]
      obtain ⟨r, hr, h1, h2, h3, h4⟩ := SampleDistr.loop_spec p n (i + 1) (val - p[i]) (by omega)
      have e : val - p[i] + (p.take (i + 1)).sum = val + (p.take i).sum := by
        rw [hsum]; ring
      rw [e] at h3 h4
      refine ⟨r, hr, by omega, h2, ?_, h4⟩
      intro j hj1 hj2
      rcases Nat.eq_or_lt_of_le hj1 with rfl | hj
      · rw [hsum]
        intro hc
        apply hlt
        linarith
      · exact h3 j hj hj2

/-- C5. `SampleDistr` never returns an out-of-range index: for a non-empty `p`
(of any entries) and any value of the uniform draw it returns an index `i`
with `0 <= i < len(p)`. -/
theorem SampleDistr_in_range [LinearOrderedField α] (val : α) (p : List α) (hp : p ≠ []) :
    ∃ i, SampleDistr val p = some i ∧ 0 ≤ i ∧ i < p.length := by
  have hlen : 0 < p.length := List.length_pos.mpr hp
  obtain ⟨r, hr, _, h2, _⟩ := SampleDistr.loop_spec p (p.length - 1) 0 val (by omega)
  refine ⟨r, ?_, Nat.zero_le _, by omega⟩
  simp only [SampleDistr, Nat.ne_of_gt hlen, if_false, hr]

theorem SampleDistr_in_range_witness :
    ([0.3, 0.7] : List ℝ) ≠ [] ∧
    ∃ i, SampleDistr (0.5 : ℝ) [0.3, 0.7] = some i ∧ 0 ≤ i ∧ i < ([0.3, 0.7] : List ℝ).length :=
  ⟨by simp, SampleDistr_in_range (0.5 : ℝ) [0.3, 0.7] (by simp)⟩

/-- C6. `SampleDistr` inverts the cumulative distribution: for a non-empty `p`
and uniform draw `u` it returns an index `r <= len(p)-1` such that
`u < p[0]+...+p[i]` fails for every `i < r` and, when `r < len(p)-1`, holds
for `i = r`: the smallest index below `len(p)-1` with `u < p[0]+...+p[i]`,
and `len(p)-1` when there is none.  For `P=[0.3,0.7]` the result is 0 exactly
when `u < 0.3`. -/
theorem SampleDistr_inverts_cdf [LinearOrderedField α] (u : α) (p : List α) (hp : p ≠ []) :
    (∃ r, SampleDistr u p = some r ∧ r ≤ p.length - 1 ∧
      (∀ i, i < r → ¬ (u < (p.take (i + 1)).sum)) ∧
      (r < p.length - 1 → u < (p.take (r + 1)).sum) ∧
      ((∀ i, i < p.length - 1 → ¬ (u < (p.take (i + 1)).sum)) → r = p.length - 1)) ∧
    (p = [0.3, 0.7] → (SampleDistr u p = some 0 ↔ u < 0.3)) := by
  constructor
  · have hlen : 0 < p.length := List.length_pos.mpr hp
    obtain ⟨r, hr, _, h2, h3, h4⟩ := SampleDistr.loop_spec p (p.length - 1) 0 u (by omega)
    simp only [List.take_zero, List.sum_nil, add_zero] at h3 h4
    refine ⟨r, ?_, h2, fun i hi => h3 i (Nat.zero_le _) hi, h4, ?_⟩
    · simp only [SampleDistr, Nat.ne_of_gt hlen, if_false, hr]
    · intro hall
      by_contra hne
      have hlt : r < p.length - 1 := lt_of_le_of_ne h2 hne
      exact hall r hlt (h4 hlt)
  · intro hp2
    subst hp2
    by_cases h : u < 0.3
    · simp [SampleDistr, SampleDistr.loop, h]
    · simp [SampleDistr, SampleDistr.loop, h]

theorem SampleDistr_inverts_cdf_witness :
    ([0.3, 0.7] : List ℝ) ≠ [] ∧
    SampleDistr (0.2 : ℝ) [0.3, 0.7] = some 0 ∧ SampleDistr (0.3 : ℝ) [0.3, 0.7] = some 1 ∧
    ((∃ r, SampleDistr (0.2 : ℝ) [0.3, 0.7] = some r ∧ r ≤ ([0.3, 0.7] : List ℝ).length - 1 ∧
      (∀ i, i < r → ¬ ((0.2 : ℝ) < (([0.3, 0.7] : List ℝ).take (i + 1)).sum)) ∧
      (r < ([0.3, 0.7] : List ℝ).length - 1 →
        (0.2 : ℝ) < (([0.3, 0.7] : List ℝ).take (r + 1)).sum) ∧
      ((∀ i, i < ([0.3, 0.7] : List ℝ).length - 1 →
        ¬ ((0.2 : ℝ) < (([0.3, 0.7] : List ℝ).take (i + 1)).sum)) →
        r = ([0.3, 0.7] : List ℝ).length - 1)) ∧
    (([0.3, 0.7] : List ℝ) = [0.3, 0.7] →
      (SampleDistr (0.2 : ℝ) [0.3, 0.7] = some 0 ↔ (0.2 : ℝ) < 0.3))) :=
  ⟨by simp, by norm_num [SampleDistr, SampleDistr.loop],
    by norm_num [SampleDistr, SampleDistr.loop],
    SampleDistr_inverts_cdf (0.2 : ℝ) [0.3, 0.7] (by simp)⟩

end SampleDistrProofs

/-! ### `Norm` and `Prob::ModeID` -/

section NormProofs

variable {α : Type}

theorem Norm_eq [LinearOrderedField α] (vd : List α) : Norm vd = vd.map (fun x => x / vd.sum) := by
  simp only [Norm, foldl_add_zero]

theorem sum_map_div [LinearOrderedField α] (l : List α) (c : α) :
    (l.map (fun x => x / c)).sum = l.sum / c := by
  induction l with
  | nil => simp
  | cons x xs ih => simp only [List.map_cons, List.sum_cons, ih, add_div]

theorem sum_pos_of_pos [LinearOrderedField α] :
    ∀ (l : List α), l ≠ [] → (∀ x ∈ l, 0 < x) → 0 < l.sum
  | [], h, _ => absurd rfl h
  | [x], _, hpos => by simpa using hpos x (List.mem_singleton_self x)
  | x :: y :: rest, _, hpos => by
    have h1 : 0 < x := hpos x (List.mem_cons_self _ _)
    have h2 : 0 < (y :: rest).sum :=
      sum_pos_of_pos (y :: rest) (List.cons_ne_nil _ _)
        (fun z hz => hpos z (List.mem_cons_of_mem _ hz))
    rw [List.sum_cons]
    exact add_pos h1 h2

/-- C8. `Norm` on a non-empty vector of positive elements: the length is
unchanged, the elements sum to 1, every new element is the old one divided by
the old sum, and ratios are preserved
(`new v[i] * old v[j] == new v[j] * old v[i]`). -/
theorem Norm_sums_to_one [LinearOrderedField α] (v : List α) (hne : v ≠ [])
    (hpos : ∀ x ∈ v, 0 < x) :
    (Norm v).length = v.length ∧ (Norm v).sum = 1 ∧
    (∀ i : Nat, (Norm v)[i]? = (v[i]?).map (fun x => x / v.sum)) ∧
    (∀ (i j : Nat) (ni nj oi oj : α), (Norm v)[i]? = some ni → (Norm v)[j]? = some nj →
      v[i]? = some oi → v[j]? = some oj → ni * oj = nj * oi) := by
  have hs : 0 < v.sum := sum_pos_of_pos v hne hpos
  have hget : ∀ i : Nat, (Norm v)[i]? = (v[i]?).map (fun x => x / v.sum) := by
    intro i
    rw [Norm_eq, List.getElem?_map]
  refine ⟨by rw [Norm_eq, List.length_map], ?_, hget, ?_⟩
  · rw [Norm_eq, sum_map_div, div_self (ne_of_gt hs)]
  · intro i j ni nj oi oj h1 h2 h3 h4
    rw [hget, h3, Option.map_some', Option.some.injEq] at h1
    rw [hget, h4, Option.map_some', Option.some.injEq] at h2
    rw [← h1, ← h2]
    ring

theorem Norm_sums_to_one_witness :
    (([1, 1, 2] : List ℝ) ≠ [] ∧ ∀ x ∈ ([1, 1, 2] : List ℝ), 0 < x) ∧
    Norm ([1, 1, 2] : List ℝ) = [0.25, 0.25, 0.5] ∧
    ((Norm ([1, 1, 2] : List ℝ)).length = ([1, 1, 2] : List ℝ).length ∧
      (Norm ([1, 1, 2] : List ℝ)).sum = 1 ∧
      (∀ i : Nat, (Norm ([1, 1, 2] : List ℝ))[i]?
        = (([1, 1, 2] : List ℝ)[i]?).map (fun x => x / ([1, 1, 2] : List ℝ).sum)) ∧
      (∀ (i j : Nat) (ni nj oi oj : ℝ), (Norm ([1, 1, 2] : List ℝ))[i]? = some ni →
        (Norm ([1, 1, 2] : List ℝ))[j]? = some nj →
        ([1, 1, 2] : List ℝ)[i]? = some oi → ([1, 1, 2] : List ℝ)[j]? = some oj →
        ni * oj = nj * oi)) := by
  have hpos : ∀ x ∈ ([1, 1, 2] : List ℝ), 0 < x := by
    intro x hx
    simp only [List.mem_cons, List.mem_singleton, List.not_mem_nil, or_false] at hx
    rcases hx with rfl | rfl | rfl <;> norm_num
  refine ⟨⟨by simp, hpos⟩, ?_, Norm_sums_to_one ([1, 1, 2] : List ℝ) (by simp) hpos⟩
  norm_num [Norm]

namespace Prob

/-- C7 fails on the code: for `P=[0.1,0.5,0.3]` the method `ModeID` returns 2,
while `MaxP` returns 0.5, which is `P[1]`; `P[ModeID()]` is 0.3. -/
theorem ModeID_last_above_first :
    ModeID ({ P := [0.1, 0.5, 0.3], LP := [], samples := ["a", "b", "c"] } : Prob ℝ String)
      = some 2 ∧
    MaxP ({ P := [0.1, 0.5, 0.3], LP := [], samples := ["a", "b", "c"] } : Prob ℝ String)
      = some 0.5 ∧
    ([0.1, 0.5, 0.3] : List ℝ)[2]? = some (0.3 : ℝ) ∧ (0.3 : ℝ) ≠ 0.5 := by
  refine ⟨?_, ?_, rfl, by norm_num⟩
  · norm_num [ModeID, List.enumFrom]
  · norm_num [MaxP]

end Prob

end NormProofs

/-! ### `Lognorm` -/

section LognormProofs

variable {α : Type}

theorem Lognorm.le_max [LinearOrder α] : ∀ (vd : List α) (a : α),
    a ≤ Lognorm.max a vd ∧ ∀ x ∈ vd, x ≤ Lognorm.max a vd
  | [], a => by simp [Lognorm.max]
  | y :: ys, a => by
    have ih := Lognorm.le_max ys (if y > a then y else a)
    have e : Lognorm.max a (y :: ys) = Lognorm.max (if y > a then y else a) ys := rfl
    rw [e]
    have h1 : a ≤ (if y > a then y else a) := by
      split
      · exact le_of_lt ‹_›
      · exact le_refl _
    have h2 : y ≤ (if y > a then y else a) := by
      split
      · exact le_refl _
      · exact not_lt.mp ‹_›
    refine ⟨le_trans h1 ih.1, ?_⟩
    intro x hx
    rcases List.mem_cons.mp hx with rfl | hx
    · exact le_trans h2 ih.1
    · exact ih.2 x hx

theorem Lognorm.max_mem [LinearOrder α] : ∀ (vd : List α) (a : α),
    Lognorm.max a vd = a ∨ Lognorm.max a vd ∈ vd
  | [], a => Or.inl rfl
  | y :: ys, a => by
    have e : Lognorm.max a (y :: ys) = Lognorm.max (if y > a then y else a) ys := rfl
    rw [e]
    rcases Lognorm.max_mem ys (if y > a then y else a) with h | h
    · rw [h]
      split
      · exact Or.inr (List.mem_cons_self _ _)
      · exact Or.inl rfl
    · exact Or.inr (List.mem_cons_of_mem _ h)

theorem Lognorm.shift_eq (vd0 : ℝ) (vd : List ℝ) :
    Lognorm.shift Real.exp Real.log vd0 vd
      = (vd.map (fun x => x - Lognorm.max vd0 vd),
         Real.log ((vd.map (fun x => Real.exp (x - Lognorm.max vd0 vd))).sum)) := by
  simp only [Lognorm.shift, foldl_add_eq_sum, zero_add, List.map_map]
  rfl

theorem Lognorm.one_le_sum (vd0 : ℝ) (rest : List ℝ) :
    1 ≤ (((vd0 :: rest).map (fun x => Real.exp (x - Lognorm.max vd0 (vd0 :: rest))))).sum := by
  have hmem : Lognorm.max vd0 (vd0 :: rest) ∈ vd0 :: rest := by
    rcases Lognorm.max_mem (vd0 :: rest) vd0 with h | h
    · rw [h]; exact List.mem_cons_self _ _
    · exact h
  have h1 : (1 : ℝ) ∈ (vd0 :: rest).map (fun x => Real.exp (x - Lognorm.max vd0 (vd0 :: rest))) :=
    List.mem_map.mpr ⟨_, hmem, by simp⟩
  refine List.single_le_sum ?_ 1 h1
  intro y hy
  obtain ⟨x, _, rfl⟩ := List.mem_map.mp hy
  exact le_of_lt (Real.exp_pos _)

/-- C9. `Lognorm` on a non-empty vector of reals returns a vector of the same
length whose elements all satisfy `-200 <= v[i] <= 0`. -/
theorem Lognorm_floor (v : List ℝ) (hne : v ≠ []) :
    ∃ out, Lognorm Real.exp Real.log v = some out ∧ out.length = v.length ∧
      ∀ x ∈ out, -200 ≤ x ∧ x ≤ 0 := by
  obtain ⟨vd0, rest, rfl⟩ := List.exists_cons_of_ne_nil hne
  refine ⟨_, rfl, by simp [Lognorm.shift], ?_⟩
  intro x hx
  rw [Lognorm.shift_eq] at hx
  simp only [List.map_map, List.mem_map, Function.comp] at hx
  obtain ⟨y, hy, rfl⟩ := hx
  have hle : y ≤ Lognorm.max vd0 (vd0 :: rest) := (Lognorm.le_max (vd0 :: rest) vd0).2 y hy
  have hlog := Real.log_nonneg (Lognorm.one_le_sum vd0 rest)
  split
  · constructor <;> norm_num
  · rename_i hc
    constructor
    · exact not_lt.mp hc
    · linarith

theorem Lognorm_floor_witness :
    ([0, -1000] : List ℝ) ≠ [] ∧
    ∃ out, Lognorm Real.exp Real.log ([0, -1000] : List ℝ) = some out ∧
      out.length = ([0, -1000] : List ℝ).length ∧ ∀ x ∈ out, -200 ≤ x ∧ x ≤ 0 :=
  ⟨by simp, Lognorm_floor [0, -1000] (by simp)⟩

theorem sum_map_le {β : Type} (f g : β → ℝ) :
    ∀ l : List β, (∀ x ∈ l, f x ≤ g x) → (l.map f).sum ≤ (l.map g).sum
  | [], _ => by simp
  | x :: xs, h => by
    simp only [List.map_cons, List.sum_cons]
    exact add_le_add (h x (List.mem_cons_self _ _))
      (sum_map_le f g xs (fun y hy => h y (List.mem_cons_of_mem _ hy)))

theorem sum_map_add_const {β : Type} (f : β → ℝ) (c : ℝ) :
    ∀ l : List β, (l.map (fun x => f x + c)).sum = (l.map f).sum + (l.length : ℝ) * c
  | [] => by simp
  | x :: xs => by
    simp only [List.map_cons, List.sum_cons, List.length_cons, sum_map_add_const f c xs]
    push_cast
    ring

theorem sum_map_mul_const {β : Type} (f : β → ℝ) (c : ℝ) :
    ∀ l : List β, (l.map (fun x => f x * c)).sum = (l.map f).sum * c
  | [] => by simp
  | x :: xs => by
    simp only [List.map_cons, List.sum_cons, sum_map_mul_const f c xs]
    ring

theorem Lognorm.sum_exp_pos (v : List ℝ) (hne : v ≠ []) : 0 < (v.map Real.exp).sum := by
  apply sum_pos_of_pos
  · simpa using hne
  · intro y hy
    obtain ⟨x, _, rfl⟩ := List.mem_map.mp hy
    exact Real.exp_pos x

theorem Lognorm.log_sum_shift (v : List ℝ) (hne : v ≠ []) (m : ℝ) :
    Real.log ((v.map (fun x => Real.exp (x - m))).sum) = Real.log ((v.map Real.exp).sum) - m := by
  have h1 : (v.map (fun x => Real.exp (x - m))).sum = (v.map Real.exp).sum * Real.exp (-m) := by
    rw [← sum_map_mul_const]
    congr 1
    apply List.map_congr_left
    intro x _
    rw [← Real.exp_add]
    ring_nf
  rw [h1, Real.log_mul (ne_of_gt (Lognorm.sum_exp_pos v hne)) (ne_of_gt (Real.exp_pos _)),
    Real.log_exp]
  ring

theorem Lognorm.closed_form (v : List ℝ) (hne : v ≠ []) :
    Lognorm Real.exp Real.log v = some (v.map (fun x =>
      if x - Real.log ((v.map Real.exp).sum) < -200 then -200
      else x - Real.log ((v.map Real.exp).sum))) := by
  obtain ⟨vd0, rest, rfl⟩ := List.exists_cons_of_ne_nil hne
  simp only [Lognorm, Lognorm.shift_eq, Lognorm.log_sum_shift _ hne, List.map_map]
  congr 1
  apply List.map_congr_left
  intro x _
  simp only [Function.comp]
  have e : x - Lognorm.max vd0 (vd0 :: rest)
      - (Real.log ((List.map Real.exp (vd0 :: rest)).sum) - Lognorm.max vd0 (vd0 :: rest))
      = x - Real.log ((List.map Real.exp (vd0 :: rest)).sum) := by ring
  rw [e]

theorem Lognorm.sum_exp_sub_log (v : List ℝ) (hne : v ≠ []) :
    (v.map (fun x => Real.exp (x - Real.log ((v.map Real.exp).sum)))).sum = 1 := by
  have hpos := Lognorm.sum_exp_pos v hne
  have h1 : (v.map (fun x => Real.exp (x - Real.log ((v.map Real.exp).sum)))).sum
      = (v.map Real.exp).sum * Real.exp (-Real.log ((v.map Real.exp).sum)) := by
    rw [← sum_map_mul_const]
    congr 1
    apply List.map_congr_left
    intro x _
    rw [← Real.exp_add]
    ring_nf
  rw [h1, Real.exp_neg, Real.exp_log hpos, mul_inv_cancel₀ (ne_of_gt hpos)]

/-- C10. `Lognorm` on a non-empty vector of reals returns, for each element, the
value `v[i] - log(sum_j exp(v[j]))` floored at -200.  When no element is
clamped the output is exactly `v[i] - log(sum_j exp(v[j]))` and its
exponentials sum to 1; for every input the sum of the exponentials lies
between 1 and `1 + len(v)*exp(-200)`. -/
theorem Lognorm_normalises (v : List ℝ) (hne : v ≠ []) :
    ∃ out, Lognorm Real.exp Real.log v = some out ∧
      out = v.map (fun x => if x - Real.log ((v.map Real.exp).sum) < -200 then -200
        else x - Real.log ((v.map Real.exp).sum)) ∧
      ((∀ x ∈ v, ¬ (x - Real.log ((v.map Real.exp).sum) < -200)) →
        out = v.map (fun x => x - Real.log ((v.map Real.exp).sum)) ∧
        (out.map Real.exp).sum = 1) ∧
      1 ≤ (out.map Real.exp).sum ∧
      (out.map Real.exp).sum ≤ 1 + (v.length : ℝ) * Real.exp (-200) := by
  refine ⟨_, Lognorm.closed_form v hne, rfl, ?_, ?_, ?_⟩
  · intro hno
    have e : v.map (fun x => if x - Real.log ((v.map Real.exp).sum) < -200 then -200
        else x - Real.log ((v.map Real.exp).sum))
        = v.map (fun x => x - Real.log ((v.map Real.exp).sum)) := by
      apply List.map_congr_left
      intro x hx
      simp only [hno x hx, if_false]
    rw [e, List.map_map]
    exact ⟨rfl, Lognorm.sum_exp_sub_log v hne⟩
  · rw [List.map_map, ← Lognorm.sum_exp_sub_log v hne]
    apply sum_map_le
    intro x _
    simp only [Function.comp]
    apply Real.exp_le_exp.mpr
    split
    · exact le_of_lt ‹_›
    · exact le_refl _
  · rw [List.map_map, ← Lognorm.sum_exp_sub_log v hne, ← sum_map_add_const]
    apply sum_map_le
    intro x _
    simp only [Function.comp]
    split
    · have := Real.exp_pos (x - Real.log ((v.map Real.exp).sum))
      linarith
    · have := Real.exp_pos (-200)
      linarith

theorem Lognorm_normalises_witness :
    ([0, -1000] : List ℝ) ≠ [] ∧
    ∃ out, Lognorm Real.exp Real.log ([0, -1000] : List ℝ) = some out ∧
      out = ([0, -1000] : List ℝ).map (fun x =>
        if x - Real.log ((([0, -1000] : List ℝ).map Real.exp).sum) < -200 then -200
        else x - Real.log ((([0, -1000] : List ℝ).map Real.exp).sum)) ∧
      ((∀ x ∈ ([0, -1000] : List ℝ),
          ¬ (x - Real.log ((([0, -1000] : List ℝ).map Real.exp).sum) < -200)) →
        out = ([0, -1000] : List ℝ).map
          (fun x => x - Real.log ((([0, -1000] : List ℝ).map Real.exp).sum)) ∧
        (out.map Real.exp).sum = 1) ∧
      1 ≤ (out.map Real.exp).sum ∧
      (out.map Real.exp).sum ≤ 1 + (([0, -1000] : List ℝ).length : ℝ) * Real.exp (-200) :=
  ⟨by simp, Lognorm_normalises [0, -1000] (by simp)⟩

end LognormProofs

/-! ### `LogAdd` -/

theorem LogAdd.add_log_one_add_exp (x y : ℝ) :
    x + Real.log (1 + Real.exp (y - x)) = Real.log (Real.exp x + Real.exp y) := by
  have h1 : Real.exp x + Real.exp y = Real.exp x * (1 + Real.exp (y - x)) := by
    rw [mul_add, mul_one, ← Real.exp_add]
    congr 2
    ring
  have hpos : 0 < 1 + Real.exp (y - x) := by
    have := Real.exp_pos (y - x)
    linarith
  rw [h1, Real.log_mul (ne_of_gt (Real.exp_pos x)) (ne_of_gt hpos), Real.log_exp]

/-- C11. `LogAdd` is log-sum-exp and commutative: for all reals `a`, `b`,
`LogAdd(a,b) == log(exp(a)+exp(b)) == max(a,b) + log(1+exp(-|a-b|))`,
`LogAdd(a,b) == LogAdd(b,a)`, and `exp(LogAdd(log 2, log 3)) == 5`. -/
theorem LogAdd_log_sum_exp :
    (∀ a b : ℝ,
      LogAdd Real.exp Real.log a b = Real.log (Real.exp a + Real.exp b) ∧
      LogAdd Real.exp Real.log a b = max a b + Real.log (1 + Real.exp (-|a - b|)) ∧
      LogAdd Real.exp Real.log a b = LogAdd Real.exp Real.log b a) ∧
    Real.exp (LogAdd Real.exp Real.log (Real.log 2) (Real.log 3)) = 5 := by
  have hlse : ∀ a b : ℝ,
      LogAdd Real.exp Real.log a b = Real.log (Real.exp a + Real.exp b) := by
    intro a b
    unfold LogAdd
    split
    · exact LogAdd.add_log_one_add_exp a b
    · rw [LogAdd.add_log_one_add_exp b a, add_comm]
  refine ⟨fun a b => ⟨hlse a b, ?_, ?_⟩, ?_⟩
  · unfold LogAdd
    by_cases h : a > b
    · have h1 : max a b = a := max_eq_left (le_of_lt h)
      have h2 : -|a - b| = b - a := by
        rw [abs_of_pos (sub_pos.mpr h)]
        ring
      rw [if_pos h, h1, h2]
    · have hle : a ≤ b := not_lt.mp h
      have h1 : max a b = b := max_eq_right hle
      have h2 : -|a - b| = a - b := by
        rw [abs_of_nonpos (sub_nonpos.mpr hle)]
        ring
      rw [if_neg h, h1, h2]
  · rw [hlse a b, hlse b a, add_comm]
  · have e2 : Real.exp (Real.log 2) = 2 := Real.exp_log (by norm_num)
    have e3 : Real.exp (Real.log 3) = 3 := Real.exp_log (by norm_num)
    rw [hlse, e2, e3, Real.exp_log (by norm_num)]
    norm_num

/-! ### 32-bit `int` values -/

theorem wrapInt_of_range (x : Int) (h1 : INT_MIN ≤ x) (h2 : x ≤ INT_MAX) : wrapInt x = x := by
  unfold INT_MIN at h1
  unfold INT_MAX at h2
  unfold wrapInt
  omega

/-! ### `Prob::Entropy` -/

namespace Prob
variable {α T : Type}

theorem Entropy.loop_const [LinearOrderedField α] (log : α → α) (c : α) (hc : ¬ c < 1e-10) :
    ∀ (P : List α) (i : Int) (ent : α), (∀ x ∈ P, x = c) →
      (P = [] ∨ (0 ≤ i ∧ i + (P.length : Int) ≤ 2147483648)) →
      Entropy.loop log P i ent = ent + (P.length : α) * (-c * log c)
  | [], _, ent, _, _ => by simp [Entropy.loop]
  | x :: rest, i, ent, h, hi => by
    have hx : x = c := h x (List.mem_cons_self _ _)
    have hi' : 0 ≤ i ∧ i + ((x :: rest).length : Int) ≤ 2147483648 := by
      rcases hi with hnil | hi
      · exact absurd hnil (List.cons_ne_nil _ _)
      · exact hi
    have hlen : ((x :: rest).length : Int) = (rest.length : Int) + 1 := by
      simp only [List.length_cons]
      push_cast
      rfl
    have hnext : rest = [] ∨
        (0 ≤ wrapInt (i + 1) ∧ wrapInt (i + 1) + (rest.length : Int) ≤ 2147483648) := by
      cases rest with
      | nil => exact Or.inl rfl
      | cons y ys =>
        right
        have hl2 : (((y :: ys).length : Nat) : Int) = (ys.length : Int) + 1 := by
          simp only [List.length_cons]
          push_cast
          rfl
        rw [hlen, hl2] at hi'
        have hw : wrapInt (i + 1) = i + 1 :=
          wrapInt_of_range _ (by unfold INT_MIN; omega) (by unfold INT_MAX; omega)
        rw [hw, hl2]
        omega
    rw [Entropy.loop, if_neg (not_lt.mpr hi'.1), hx, if_neg hc,
      Entropy.loop_const log c hc rest _ _ (fun y hy => h y (List.mem_cons_of_mem _ hy)) hnext]
    simp only [List.length_cons]
    push_cast
    ring

/-- C12. Entropy of a uniform distribution: for every `n >= 1` that the `int`
loop counter of `Entropy` can traverse (`n <= INT_MAX`), a `Prob` whose `P` has
`n` entries all equal to `1/n` has `Entropy() == log(n)`; on all these `n` the
entry `1/n` is at least `1e-10`, so none is skipped. -/
theorem Entropy_uniform (n : Nat) (hn : 1 ≤ n) (hmax : (n : Int) ≤ INT_MAX)
    (p : Prob ℝ T) (hlen : p.P.length = n) (hall : ∀ x ∈ p.P, x = 1 / (n : ℝ)) :
    Entropy Real.log p = Real.log n := by
  unfold INT_MAX at hmax
  have hpos : (0 : ℝ) < n := by exact_mod_cast hn
  have hn0 : (n : ℝ) ≠ 0 := ne_of_gt hpos
  have hle : (n : ℝ) ≤ 2147483647 := by exact_mod_cast hmax
  have hth : ¬ (1 / (n : ℝ) < 1e-10) := by
    rw [not_lt, le_div_iff₀ hpos]
    have h1 : (1e-10 : ℝ) * (n : ℝ) ≤ 1e-10 * 2147483647 :=
      mul_le_mul_of_nonneg_left hle (by norm_num)
    have h2 : (1e-10 : ℝ) * 2147483647 ≤ 1 := by norm_num
    exact le_trans h1 h2
  rw [Entropy, Entropy.loop_const Real.log (1 / (n : ℝ)) hth p.P 0 0 hall
    (Or.inr ⟨le_refl _, by rw [hlen]; omega⟩), hlen, zero_add, one_div, Real.log_inv]
  field_simp

theorem Entropy_uniform_witness :
    (1 ≤ 2 ∧ ((2 : Nat) : Int) ≤ INT_MAX ∧
      ([0.5, 0.5] : List ℝ).length = 2 ∧ ∀ x ∈ ([0.5, 0.5] : List ℝ), x = 1 / ((2 : Nat) : ℝ)) ∧
    Entropy Real.log ({ P := [0.5, 0.5], LP := [], samples := ["a", "b"] } : Prob ℝ String)
      = Real.log ((2 : Nat) : ℝ) := by
  have h2 : ∀ x ∈ ([0.5, 0.5] : List ℝ), x = 1 / ((2 : Nat) : ℝ) := by
    intro x hx
    simp only [List.mem_cons, List.mem_singleton, List.not_mem_nil, or_false, or_self] at hx
    rw [hx]
    norm_num
  exact ⟨⟨by decide, by decide, rfl, h2⟩,
    Entropy_uniform 2 (by decide) (by decide)
      ({ P := [0.5, 0.5], LP := [], samples := ["a", "b"] } : Prob ℝ String) rfl h2⟩

end Prob

/-! ### `KLDiv` -/

section KLDivProofs

variable {α : Type}

theorem KLDiv.foldl_self [LinearOrderedField α] (log : α → α) :
    ∀ (p : List α) (a : α),
      (p.zip p).foldl (fun sum pq =>
        if pq.1 < 1e-100 then sum else sum + pq.1 * (log pq.1 - log (pq.2 + 0))) a = a
  | [], _ => rfl
  | x :: xs, a => by
    rw [List.zip_cons_cons, List.foldl_cons]
    have h : (if x < 1e-100 then a else a + x * (log x - log (x + 0))) = a := by
      split
      · rfl
      · rw [add_zero, sub_self, mul_zero, add_zero]
    simp only [h]
    exact KLDiv.foldl_self log xs a

/-- C13. `KLDiv(p, p, 0) == 0` for every vector `p`, in particular for every
valid probability vector, whether or not entries are 0 or below the `1e-100`
skip threshold: every term that is not skipped is `p[i]*(log p[i] - log p[i])`. -/
theorem KLDiv_self [LinearOrderedField α] (log : α → α) (p : List α) :
    KLDiv log p p 0 = some 0 := by
  simp only [KLDiv, if_true, KLDiv.foldl_self log p 0]

end KLDivProofs

/-! ### `gcd` and `lcm` -/

theorem gcd.loop_natCast :
    ∀ (fuel a b : Nat), 0 < a → 0 < b → a ≤ 2147483647 → b ≤ 2147483647 → a + b ≤ fuel →
      gcd.loop fuel (a : Int) (b : Int) = some ((Nat.gcd a b : Nat) : Int)
  | 0, a, b, ha, hb, _, _, hf => by omega
  | fuel + 1, a, b, ha, hb, ha', hb', hf => by
    rcases Nat.lt_trichotomy a b with hlt | heq | hgt
    · have h1 : (a : Int) ≠ (b : Int) := by omega
      have h2 : ¬ ((a : Int) > (b : Int)) := by omega
      have h3 : wrapInt ((b : Int) - (a : Int)) = ((b - a : Nat) : Int) := by
        rw [wrapInt_of_range _ (by unfold INT_MIN; omega) (by unfold INT_MAX; omega)]
        omega
      rw [gcd.loop, if_pos h1, if_neg h2, h3,
        gcd.loop_natCast fuel a (b - a) ha (by omega) ha' (by omega) (by omega),
        Nat.gcd_sub_self_right (le_of_lt hlt)]
    · subst heq
      rw [gcd.loop, if_neg (by simp), Nat.gcd_self]
    · have h1 : (a : Int) ≠ (b : Int) := by omega
      have h2 : (a : Int) > (b : Int) := by omega
      have h3 : wrapInt ((a : Int) - (b : Int)) = ((a - b : Nat) : Int) := by
        rw [wrapInt_of_range _ (by unfold INT_MIN; omega) (by unfold INT_MAX; omega)]
        omega
      rw [gcd.loop, if_pos h1, if_pos h2, h3,
        gcd.loop_natCast fuel (a - b) b (by omega) hb (by omega) hb' (by omega),
        Nat.gcd_sub_self_left (le_of_lt hgt)]

theorem gcd.loop_mono :
    ∀ (fuel : Nat) (m n r : Int), gcd.loop fuel m n = some r →
      ∀ k : Nat, gcd.loop (fuel + k) m n = some r
  | 0, _, _, _, h, _ => by simp [gcd.loop] at h
  | fuel + 1, m, n, r, h, k => by
    have e : fuel + 1 + k = (fuel + k) + 1 := by omega
    rw [e]
    rw [gcd.loop] at h ⊢
    by_cases h1 : m ≠ n
    · rw [if_pos h1] at h ⊢
      by_cases h2 : m > n
      · rw [if_pos h2] at h ⊢
        exact gcd.loop_mono fuel _ _ r h k
      · rw [if_neg h2] at h ⊢
        exact gcd.loop_mono fuel _ _ r h k
    · rw [if_neg h1] at h ⊢
      exact h

theorem gcd_natCast (fuel a b : Nat) (ha : 0 < a) (hb : 0 < b) (ha' : a ≤ 2147483647)
    (hb' : b ≤ 2147483647) :
    (a + b ≤ fuel → gcd fuel (a : Int) (b : Int) = some ((Nat.gcd a b : Nat) : Int)) ∧
    (∀ r, gcd fuel (a : Int) (b : Int) = some r → r = ((Nat.gcd a b : Nat) : Int)) := by
  have hz : ¬ ((0 : Int) = (a : Int) ∨ (0 : Int) = (b : Int)) := by omega
  constructor
  · intro hf
    rw [gcd, if_neg hz]
    exact gcd.loop_natCast fuel a b ha hb ha' hb' hf
  · intro r hr
    rw [gcd, if_neg hz] at hr
    have h1 := gcd.loop_mono fuel _ _ r hr (a + b)
    have h2 := gcd.loop_natCast (fuel + (a + b)) a b ha hb ha' hb' (by omega)
    rw [h1] at h2
    exact Option.some.inj h2

theorem div_gcd_mul_eq_lcm (a b : Nat) (ha : 0 < a) : a / Nat.gcd a b * b = Nat.lcm a b := by
  have hg : 0 < Nat.gcd a b := Nat.gcd_pos_of_pos_left b ha
  apply Nat.eq_of_mul_eq_mul_left hg
  rw [Nat.gcd_mul_lcm, ← Nat.mul_assoc, Nat.mul_div_cancel' (Nat.gcd_dvd_left a b)]

theorem lcm_natCast (fuel a b : Nat) (ha : 0 < a) (hb : 0 < b) (ha' : a ≤ 2147483647)
    (hb' : b ≤ 2147483647) (hf : a + b ≤ fuel) :
    lcm fuel (a : Int) (b : Int) = some (wrapInt ((Nat.lcm a b : Nat) : Int)) := by
  have hz : ¬ ((0 : Int) = (a : Int) ∨ (0 : Int) = (b : Int)) := by omega
  have hg : 0 < Nat.gcd a b := Nat.gcd_pos_of_pos_left b ha
  have hg0 : ((Nat.gcd a b : Nat) : Int) ≠ 0 := by omega
  have hq : a / Nat.gcd a b ≤ a := Nat.div_le_self a _
  have hdiv : Int.tdiv (a : Int) ((Nat.gcd a b : Nat) : Int) = ((a / Nat.gcd a b : Nat) : Int) :=
    (Int.ofNat_tdiv a (Nat.gcd a b)).symm
  have hwq : ∀ q : Nat, q ≤ a → wrapInt (q : Int) = (q : Int) := by
    intro q hq
    exact wrapInt_of_range _ (by unfold INT_MIN; omega) (by unfold INT_MAX; omega)
  have hw := hwq _ hq
  have hcond : ¬ (((Nat.gcd a b : Nat) : Int) = 0 ∨
      ((a : Int) = INT_MIN ∧ ((Nat.gcd a b : Nat) : Int) = -1)) := by
    unfold INT_MIN
    omega
  rw [lcm, if_neg hz, (gcd_natCast fuel a b ha hb ha' hb').1 hf]
  simp only [hcond, if_false, hdiv, hw]
  rw [← div_gcd_mul_eq_lcm a b ha]
  push_cast
  rfl

theorem wrapInt_eq_zero_iff (x : Int) : wrapInt x = 0 ↔ (4294967296 : Int) ∣ x := by
  unfold wrapInt
  omega

theorem wrapInt_lcm_ne_zero (a b : Nat) (ha : 0 < a) (hb : 0 < b) (ha' : a ≤ 2147483647)
    (hb' : b ≤ 2147483647) : wrapInt ((Nat.lcm a b : Nat) : Int) ≠ 0 := by
  intro h
  rw [wrapInt_eq_zero_iff] at h
  have hnat : 4294967296 ∣ Nat.lcm a b := by
    have : ((4294967296 : Nat) : Int) ∣ ((Nat.lcm a b : Nat) : Int) := by exact_mod_cast h
    exact Int.natCast_dvd_natCast.mp this
  have hg : 0 < Nat.gcd a b := Nat.gcd_pos_of_pos_left b ha
  have hcop : Nat.Coprime (a / Nat.gcd a b) (b / Nat.gcd a b) := Nat.coprime_div_gcd_div_gcd hg
  have hpow : (4294967296 : Nat) = 2 ^ 32 := by norm_num
  -- `lcm a b = (a / g) * b = a * (b / g)`
  have e1 : Nat.lcm a b = a / Nat.gcd a b * b := (div_gcd_mul_eq_lcm a b ha).symm
  have e2 : Nat.lcm a b = b / Nat.gcd a b * a := by
    rw [Nat.lcm_comm, Nat.gcd_comm]
    exact (div_gcd_mul_eq_lcm b a hb).symm
  by_cases hodd : 2 ∣ a / Nat.gcd a b
  · have hb2 : ¬ 2 ∣ b / Nat.gcd a b := by
      intro hb2
      have := Nat.dvd_gcd hodd hb2
      rw [hcop] at this
      exact absurd (Nat.le_of_dvd Nat.one_pos this) (by decide)
    have hc : Nat.Coprime (2 ^ 32) (b / Nat.gcd a b) :=
      Nat.Coprime.pow_left 32 ((Nat.Prime.coprime_iff_not_dvd Nat.prime_two).mpr hb2)
    rw [e2, hpow] at hnat
    have := Nat.le_of_dvd ha (hc.dvd_of_dvd_mul_left hnat)
    omega
  · have hc : Nat.Coprime (2 ^ 32) (a / Nat.gcd a b) :=
      Nat.Coprime.pow_left 32 ((Nat.Prime.coprime_iff_not_dvd Nat.prime_two).mpr hodd)
    rw [e1, hpow] at hnat
    have := Nat.le_of_dvd hb (hc.dvd_of_dvd_mul_left hnat)
    omega

theorem int_gcd_natCast (a b : Nat) : Int.gcd (a : Int) (b : Int) = Nat.gcd a b := by
  simp [Int.gcd]

/-- C15. For positive `int` values `m`, `n` the subtraction loop of `gcd`
terminates (any fuel of at least `m+n` suffices, and no fuel gives another
value) and returns the greatest common divisor: it is positive, divides both,
and every common divisor divides it.  When `(m/gcd(m,n))*n` does not overflow
`int`, `lcm` returns that product and it is the least common multiple: both
divide it and it divides every common multiple. -/
theorem gcd_greatest_lcm_least (m n : Int) (hm : 0 < m) (hn : 0 < n) (hm' : m ≤ INT_MAX)
    (hn' : n ≤ INT_MAX) :
    ∃ g : Int,
      (∀ fuel : Nat, m + n ≤ (fuel : Int) → gcd fuel m n = some g) ∧
      (∀ (fuel : Nat) (r : Int), gcd fuel m n = some r → r = g) ∧
      0 < g ∧ g ∣ m ∧ g ∣ n ∧ (∀ d : Int, d ∣ m → d ∣ n → d ∣ g) ∧
      g = (Int.gcd m n : Int) ∧
      (Int.tdiv m g * n ≤ INT_MAX →
        ∃ l : Int, (∀ fuel : Nat, m + n ≤ (fuel : Int) → lcm fuel m n = some l) ∧
          l = Int.tdiv m g * n ∧ 0 < l ∧ m ∣ l ∧ n ∣ l ∧
          (∀ c : Int, m ∣ c → n ∣ c → l ∣ c)) := by
  obtain ⟨a, rfl⟩ := Int.eq_ofNat_of_zero_le (le_of_lt hm)
  obtain ⟨b, rfl⟩ := Int.eq_ofNat_of_zero_le (le_of_lt hn)
  unfold INT_MAX at hm' hn'
  have ha : 0 < a := by omega
  have hb : 0 < b := by omega
  have ha' : a ≤ 2147483647 := by omega
  have hb' : b ≤ 2147483647 := by omega
  have hg : 0 < Nat.gcd a b := Nat.gcd_pos_of_pos_left b ha
  have hdiv : Int.tdiv (a : Int) ((Nat.gcd a b : Nat) : Int) * (b : Int)
      = ((Nat.lcm a b : Nat) : Int) := by
    rw [← div_gcd_mul_eq_lcm a b ha, ← Int.ofNat_tdiv]
    push_cast
    rfl
  refine ⟨((Nat.gcd a b : Nat) : Int), ?_, ?_, by omega, ?_, ?_, ?_, ?_, ?_⟩
  · intro fuel hf
    exact (gcd_natCast fuel a b ha hb ha' hb').1 (by omega)
  · intro fuel r hr
    exact (gcd_natCast fuel a b ha hb ha' hb').2 r hr
  · exact Int.natCast_dvd_natCast.mpr (Nat.gcd_dvd_left a b)
  · exact Int.natCast_dvd_natCast.mpr (Nat.gcd_dvd_right a b)
  · intro d h1 h2
    rw [← int_gcd_natCast]
    exact Int.dvd_gcd h1 h2
  · rw [int_gcd_natCast]
  · intro hov
    rw [hdiv] at hov
    unfold INT_MAX at hov
    have hl : 0 < Nat.lcm a b := Nat.lcm_pos ha hb
    refine ⟨((Nat.lcm a b : Nat) : Int), ?_, hdiv.symm, by omega, ?_, ?_, ?_⟩
    · intro fuel hf
      rw [lcm_natCast fuel a b ha hb ha' hb' (by omega),
        wrapInt_of_range _ (by unfold INT_MIN; omega) (by unfold INT_MAX; omega)]
    · exact Int.natCast_dvd_natCast.mpr (Nat.dvd_lcm_left a b)
    · exact Int.natCast_dvd_natCast.mpr (Nat.dvd_lcm_right a b)
    · intro c h1 h2
      rw [← Int.coe_nat_lcm]
      exact Int.lcm_dvd h1 h2

theorem gcd_greatest_lcm_least_witness :
    ((0 : Int) < 12 ∧ (0 : Int) < 18 ∧ (12 : Int) ≤ INT_MAX ∧ (18 : Int) ≤ INT_MAX) ∧
    gcd 30 12 18 = some 6 ∧ lcm 30 12 18 = some 36 ∧
    ∃ g : Int,
      (∀ fuel : Nat, (12 : Int) + 18 ≤ (fuel : Int) → gcd fuel 12 18 = some g) ∧
      (∀ (fuel : Nat) (r : Int), gcd fuel 12 18 = some r → r = g) ∧
      0 < g ∧ g ∣ 12 ∧ g ∣ 18 ∧ (∀ d : Int, d ∣ 12 → d ∣ 18 → d ∣ g) ∧
      g = (Int.gcd 12 18 : Int) ∧
      (Int.tdiv 12 g * 18 ≤ INT_MAX →
        ∃ l : Int, (∀ fuel : Nat, (12 : Int) + 18 ≤ (fuel : Int) → lcm fuel 12 18 = some l) ∧
          l = Int.tdiv 12 g * 18 ∧ 0 < l ∧ (12 : Int) ∣ l ∧ (18 : Int) ∣ l ∧
          (∀ c : Int, (12 : Int) ∣ c → (18 : Int) ∣ c → l ∣ c)) :=
  ⟨⟨by decide, by decide, by decide, by decide⟩, by decide, by decide,
    gcd_greatest_lcm_least 12 18 (by decide) (by decide) (by decide) (by decide)⟩

/-- C14 (amended). Degenerate policy of `gcd` and `lcm`: if `m == 0` or `n == 0`
both return 0 without entering the loop (for any fuel, also none).  For
positive `int` values both calls return (fuel `m+n` suffices), `gcd` is
positive, `lcm` is non-zero, and `lcm` is positive whenever `(m/gcd(m,n))*n`
does not overflow `int`. -/
theorem gcd_lcm_degenerate (m n : Int) :
    ((m = 0 ∨ n = 0) → ∀ fuel : Nat, gcd fuel m n = some 0 ∧ lcm fuel m n = some 0) ∧
    (0 < m → 0 < n → m ≤ INT_MAX → n ≤ INT_MAX →
      ∀ fuel : Nat, m + n ≤ (fuel : Int) →
        ∃ g l : Int, gcd fuel m n = some g ∧ lcm fuel m n = some l ∧ 0 < g ∧ l ≠ 0 ∧
          (Int.tdiv m g * n ≤ INT_MAX → 0 < l)) := by
  constructor
  · intro h fuel
    have h' : (0 : Int) = m ∨ (0 : Int) = n := by omega
    exact ⟨by rw [gcd, if_pos h'], by rw [lcm, if_pos h']⟩
  · intro hm hn hm' hn' fuel hf
    obtain ⟨a, rfl⟩ := Int.eq_ofNat_of_zero_le (le_of_lt hm)
    obtain ⟨b, rfl⟩ := Int.eq_ofNat_of_zero_le (le_of_lt hn)
    unfold INT_MAX at hm' hn'
    have ha : 0 < a := by omega
    have hb : 0 < b := by omega
    have ha' : a ≤ 2147483647 := by omega
    have hb' : b ≤ 2147483647 := by omega
    have hg : 0 < Nat.gcd a b := Nat.gcd_pos_of_pos_left b ha
    have hl : 0 < Nat.lcm a b := Nat.lcm_pos ha hb
    refine ⟨((Nat.gcd a b : Nat) : Int), wrapInt ((Nat.lcm a b : Nat) : Int),
      (gcd_natCast fuel a b ha hb ha' hb').1 (by omega),
      lcm_natCast fuel a b ha hb ha' hb' (by omega), by omega,
      wrapInt_lcm_ne_zero a b ha hb ha' hb', ?_⟩
    intro hov
    have hdiv : Int.tdiv (a : Int) ((Nat.gcd a b : Nat) : Int) * (b : Int)
        = ((Nat.lcm a b : Nat) : Int) := by
      rw [← div_gcd_mul_eq_lcm a b ha, ← Int.ofNat_tdiv]
      push_cast
      rfl
    rw [hdiv] at hov
    unfold INT_MAX at hov
    rw [wrapInt_of_range _ (by unfold INT_MIN; omega) (by unfold INT_MAX; omega)]
    omega

theorem gcd_lcm_degenerate_witness :
    (((0 : Int) = 0 ∨ (5 : Int) = 0) ∧
      ∀ fuel : Nat, gcd fuel 0 5 = some 0 ∧ lcm fuel 0 5 = some 0) ∧
    (((0 : Int) < 4 ∧ (0 : Int) < 6 ∧ (4 : Int) ≤ INT_MAX ∧ (6 : Int) ≤ INT_MAX ∧
        (4 : Int) + 6 ≤ ((10 : Nat) : Int)) ∧
      gcd 10 4 6 = some 2 ∧ lcm 10 4 6 = some 12 ∧
      ∃ g l : Int, gcd 10 4 6 = some g ∧ lcm 10 4 6 = some l ∧ 0 < g ∧ l ≠ 0 ∧
        (Int.tdiv 4 g * 6 ≤ INT_MAX → 0 < l)) :=
  ⟨⟨Or.inl rfl, (gcd_lcm_degenerate 0 5).1 (Or.inl rfl)⟩,
    ⟨by decide, by decide, by decide, by decide, by decide⟩, by decide, by decide,
    (gcd_lcm_degenerate 4 6).2 (by decide) (by decide) (by decide) (by decide) 10 (by decide)⟩

/-- C14 (as stated) fails for `m = 65536`, `n = 65535`: both are positive
`int` values, `gcd` returns 1, and `(m/1)*n = 4294901760` does not fit an
`int`; with 32-bit wrap-around `lcm` returns `-65536`, which is not positive. -/
theorem lcm_overflow_negative :
    (0 : Int) < 65536 ∧ (0 : Int) < 65535 ∧ (65536 : Int) ≤ INT_MAX ∧ (65535 : Int) ≤ INT_MAX ∧
    gcd 131071 65536 65535 = some 1 ∧
    lcm 131071 65536 65535 = some (-65536) ∧ ¬ ((0 : Int) < -65536) := by
  have hg : Nat.gcd 65536 65535 = 1 := by norm_num
  have hl : Nat.lcm 65536 65535 = 4294901760 := by
    rw [← div_gcd_mul_eq_lcm 65536 65535 (by decide), hg]
  have h1 := (gcd_natCast 131071 65536 65535 (by decide) (by decide) (by decide)
    (by decide)).1 (by decide)
  have h2 := lcm_natCast 131071 65536 65535 (by decide) (by decide) (by decide) (by decide)
    (by decide)
  rw [hg] at h1
  rw [hl] at h2
  have hw : wrapInt 4294901760 = -65536 := by decide
  refine ⟨by decide, by decide, by decide, by decide, by exact_mod_cast h1, ?_, by decide⟩
  rw [← hw]
  exact_mod_cast h2

theorem gcd.loop_negative_cycle :
    ∀ (fuel : Nat) (m n : Int),
      ((m = -1 ∧ ((1 ≤ n ∧ n ≤ 2147483647) ∨ n = -2147483648)) ∨
        (m = 2147483647 ∧ n = -2147483648)) →
      gcd.loop fuel m n = none
  | 0, _, _, _ => rfl
  | fuel + 1, m, n, h => by
    rcases h with ⟨rfl, ⟨h1, h2⟩ | rfl⟩ | ⟨rfl, rfl⟩
    · have e1 : (-1 : Int) ≠ n := by omega
      have e2 : ¬ ((-1 : Int) > n) := by omega
      rw [gcd.loop, if_pos e1, if_neg e2]
      apply gcd.loop_negative_cycle fuel
      left
      refine ⟨rfl, ?_⟩
      unfold wrapInt
      omega
    · have e1 : (-1 : Int) ≠ -2147483648 := by decide
      have e2 : (-1 : Int) > -2147483648 := by decide
      rw [gcd.loop, if_pos e1, if_pos e2]
      apply gcd.loop_negative_cycle fuel
      right
      exact ⟨by decide, rfl⟩
    · have e1 : (2147483647 : Int) ≠ -2147483648 := by decide
      have e2 : (2147483647 : Int) > -2147483648 := by decide
      rw [gcd.loop, if_pos e1, if_pos e2]
      apply gcd.loop_negative_cycle fuel
      left
      exact ⟨by decide, Or.inr rfl⟩

/-- C20 fails on the code: `gcd(-1, 1)` returns no value, whatever the number of
loop iterations allowed.  `n` is incremented up to `INT_MAX`, `n - m` then
overflows, and with wrap-around the state alternates between
`(-1, INT_MIN)` and `(INT_MAX, INT_MIN)`. -/
theorem gcd_negative_no_result : ∀ fuel : Nat, gcd fuel (-1) 1 = none := by
  intro fuel
  rw [gcd, if_neg (by decide)]
  exact gcd.loop_negative_cycle fuel (-1) 1 (Or.inl ⟨rfl, Or.inl ⟨by decide, by decide⟩⟩)

/-! ### `Average` and `StDev` -/

section StDevProofs

variable {α : Type}

theorem sum_sq_nonneg (l : List ℝ) (c : ℝ) : 0 ≤ (l.map (fun x => (x - c) ^ 2)).sum := by
  apply List.sum_nonneg
  intro y hy
  obtain ⟨x, _, rfl⟩ := List.mem_map.mp hy
  exact sq_nonneg _

/-- C16. `StDev` is the Bessel-corrected sample standard deviation: for a vector
of `N >= 2` reals, `Average(v) == sum(v)/N`, `StDev(v) >= 0` and
`StDev(v)^2 * (N-1) == sum_i (v[i] - Average(v))^2`. -/
theorem StDev_bessel (v : List ℝ) (hN : 2 ≤ v.length) :
    ∃ ave sd, Average v = some ave ∧ StDev Real.sqrt v = some sd ∧
      ave = v.sum / (v.length : ℝ) ∧ 0 ≤ sd ∧
      sd ^ 2 * ((v.length : ℝ) - 1) = (v.map (fun x => (x - ave) ^ 2)).sum := by
  refine ⟨_, _, Average_eq v (by omega), StDev_eq Real.sqrt v (by omega), rfl,
    Real.sqrt_nonneg _, ?_⟩
  have hcast : ((v.length - 1 : Nat) : ℝ) = (v.length : ℝ) - 1 := by
    rw [Nat.cast_sub (by omega)]
    simp
  have hpos : (0 : ℝ) < (v.length : ℝ) - 1 := by
    have : (2 : ℝ) ≤ (v.length : ℝ) := by exact_mod_cast hN
    linarith
  rw [hcast, Real.sq_sqrt (div_nonneg (sum_sq_nonneg v _) (le_of_lt hpos)),
    div_mul_cancel₀ _ (ne_of_gt hpos)]

theorem StDev_bessel_witness :
    2 ≤ ([2, 4, 4, 4, 5, 5, 7, 9] : List ℝ).length ∧
    Average ([2, 4, 4, 4, 5, 5, 7, 9] : List ℝ) = some 5 ∧
    StDev Real.sqrt ([2, 4, 4, 4, 5, 5, 7, 9] : List ℝ) = some (Real.sqrt (32 / 7)) ∧
    ∃ ave sd, Average ([2, 4, 4, 4, 5, 5, 7, 9] : List ℝ) = some ave ∧
      StDev Real.sqrt ([2, 4, 4, 4, 5, 5, 7, 9] : List ℝ) = some sd ∧
      ave = ([2, 4, 4, 4, 5, 5, 7, 9] : List ℝ).sum
        / (([2, 4, 4, 4, 5, 5, 7, 9] : List ℝ).length : ℝ) ∧ 0 ≤ sd ∧
      sd ^ 2 * ((([2, 4, 4, 4, 5, 5, 7, 9] : List ℝ).length : ℝ) - 1)
        = (([2, 4, 4, 4, 5, 5, 7, 9] : List ℝ).map (fun x => (x - ave) ^ 2)).sum := by
  refine ⟨by decide, ?_, ?_, StDev_bessel [2, 4, 4, 4, 5, 5, 7, 9] (by decide)⟩
  · norm_num [Average]
  · norm_num [StDev, Average]

/-- C17. Fail-fast preconditions: `Average(v)` fails (its assertion aborts)
exactly when `v` is empty and `StDev(v)` exactly when `v` has fewer than 2
elements; otherwise each returns a value, and the divisors `N` and `N-1` are
not zero. -/
theorem Average_StDev_fail_fast [LinearOrderedField α] (sqrt : α → α) (v : List α) :
    (Average v = none ↔ v = []) ∧
    (StDev sqrt v = none ↔ v.length < 2) ∧
    (v ≠ [] → (∃ a, Average v = some a) ∧ (v.length : α) ≠ 0) ∧
    (2 ≤ v.length → (∃ s, StDev sqrt v = some s) ∧ (v.length : α) ≠ 0 ∧
      ((v.length - 1 : Nat) : α) ≠ 0) := by
  refine ⟨?_, ?_, ?_, ?_⟩
  · constructor
    · intro h
      by_contra hne
      have hpos : 0 < v.length := List.length_pos.mpr hne
      rw [Average_eq v hpos] at h
      exact Option.noConfusion h
    · intro h
      subst h
      rfl
  · constructor
    · intro h
      by_contra hlt
      rw [StDev_eq sqrt v (by omega)] at h
      exact Option.noConfusion h
    · intro h
      simp only [StDev, gt_iff_lt, not_lt.mpr (Nat.lt_succ_iff.mp h), if_false]
  · intro hne
    have hpos : 0 < v.length := List.length_pos.mpr hne
    exact ⟨⟨_, Average_eq v hpos⟩, Nat.cast_ne_zero.mpr (by omega)⟩
  · intro h2
    exact ⟨⟨_, StDev_eq sqrt v (by omega)⟩, Nat.cast_ne_zero.mpr (by omega),
      Nat.cast_ne_zero.mpr (by omega)⟩

end StDevProofs

/-! ### `Prob::Normalize` -/

namespace Prob
variable {α T : Type}

/-- C18. Postcondition of `Prob::Normalize`: when `P` is non-empty with all
entries positive, afterwards `sum(P) == 1`, `len(LP) == len(P)` and
`LP[i] == log(P[i])` for every `i`, whatever `LP` held before; `samples` is
unchanged. -/
theorem Normalize_postcondition [LinearOrderedField α] (log : α → α) (p : Prob α T)
    (hne : p.P ≠ []) (hpos : ∀ x ∈ p.P, 0 < x) :
    (Normalize log p).P.sum = 1 ∧
    (Normalize log p).P.length = p.P.length ∧
    (Normalize log p).LP.length = (Normalize log p).P.length ∧
    (Normalize log p).LP = (Normalize log p).P.map log ∧
    (∀ i : Nat, (Normalize log p).LP[i]? = ((Normalize log p).P[i]?).map log) ∧
    (Normalize log p).samples = p.samples := by
  have hs : 0 < p.P.sum := sum_pos_of_pos p.P hne hpos
  refine ⟨?_, ?_, ?_, rfl, ?_, rfl⟩
  · show (Norm p.P).sum = 1
    rw [Norm_eq, sum_map_div, div_self (ne_of_gt hs)]
  · show (Norm p.P).length = p.P.length
    rw [Norm_eq, List.length_map]
  · show ((Norm p.P).map log).length = (Norm p.P).length
    rw [List.length_map]
  · intro i
    show ((Norm p.P).map log)[i]? = ((Norm p.P)[i]?).map log
    rw [List.getElem?_map]

theorem Normalize_postcondition_witness :
    (([1, 1, 2] : List ℝ) ≠ [] ∧ ∀ x ∈ ([1, 1, 2] : List ℝ), 0 < x) ∧
    Normalize Real.log ({ P := [1, 1, 2], LP := [7], samples := ["a", "b", "c"] } :
        Prob ℝ String)
      = { P := [0.25, 0.25, 0.5], LP := [Real.log 0.25, Real.log 0.25, Real.log 0.5],
          samples := ["a", "b", "c"] } ∧
    ((Normalize Real.log ({ P := [1, 1, 2], LP := [7], samples := ["a", "b", "c"] } :
        Prob ℝ String)).P.sum = 1 ∧
      (Normalize Real.log ({ P := [1, 1, 2], LP := [7], samples := ["a", "b", "c"] } :
        Prob ℝ String)).P.length = ([1, 1, 2] : List ℝ).length ∧
      (Normalize Real.log ({ P := [1, 1, 2], LP := [7], samples := ["a", "b", "c"] } :
        Prob ℝ String)).LP.length
        = (Normalize Real.log ({ P := [1, 1, 2], LP := [7], samples := ["a", "b", "c"] } :
          Prob ℝ String)).P.length ∧
      (Normalize Real.log ({ P := [1, 1, 2], LP := [7], samples := ["a", "b", "c"] } :
        Prob ℝ String)).LP
        = (Normalize Real.log ({ P := [1, 1, 2], LP := [7], samples := ["a", "b", "c"] } :
          Prob ℝ String)).P.map Real.log ∧
      (∀ i : Nat,
        (Normalize Real.log ({ P := [1, 1, 2], LP := [7], samples := ["a", "b", "c"] } :
          Prob ℝ String)).LP[i]?
        = ((Normalize Real.log ({ P := [1, 1, 2], LP := [7], samples := ["a", "b", "c"] } :
          Prob ℝ String)).P[i]?).map Real.log) ∧
      (Normalize Real.log ({ P := [1, 1, 2], LP := [7], samples := ["a", "b", "c"] } :
        Prob ℝ String)).samples = ["a", "b", "c"]) := by
  have hpos : ∀ x ∈ ([1, 1, 2] : List ℝ), 0 < x := by
    intro x hx
    simp only [List.mem_cons, List.mem_singleton, List.not_mem_nil, or_false] at hx
    rcases hx with rfl | rfl | rfl <;> norm_num
  refine ⟨⟨by simp, hpos⟩, ?_,
    Normalize_postcondition Real.log
      ({ P := [1, 1, 2], LP := [7], samples := ["a", "b", "c"] } : Prob ℝ String)
      (by simp) hpos⟩
  norm_num [Normalize, PToLP, Norm]

end Prob

/-! ### Length invariant of `Prob` -/

namespace Prob
variable {α T : Type}

theorem Sort_.filterMap_length [LinearOrder α] (P : List α) (S : List T)
    (hlen : P.length ≤ S.length) :
    ((Sort_.sorted P).filterMap (fun pr => S[pr.ID]?)).length = P.length := by
  have := congrArg List.length (map_eq_map_some_filterMap
    (fun pr : Pair α => S[pr.ID]?) _ (Sort_.lookup_isSome P S hlen))
  simp only [List.length_map] at this
  rw [← this, Sort_.sorted_length]

/-- C19 (amended). Length invariant of `Prob`: `len(P) == len(LP) == len(samples)`
holds after `Resize(n)` and `Assign(n, value)` for every `n >= 0` (all three
lengths are `n`, and every `P[i] == value` after `Assign`) and after
`Clear()`; it is preserved by `Normalize`, `PToLP`, `LPToP`, `Randomize` and
`Sort`, and by `LogNormalize` when the distribution is not empty. -/
theorem length_invariant [LinearOrderedField α] [Inhabited T] (exp log : α → α)
    (draws : Nat → α) (p : Prob α T) :
    (∀ n : Int, 0 ≤ n → ∃ q, Resize n p = some q ∧ Invariant q ∧
      (q.P.length : Int) = n ∧ (q.LP.length : Int) = n ∧ (q.samples.length : Int) = n) ∧
    (∀ (n : Int) (value : α), 0 ≤ n → ∃ q, Assign n value p = some q ∧ Invariant q ∧
      (q.P.length : Int) = n ∧ (q.LP.length : Int) = n ∧ (q.samples.length : Int) = n ∧
      ∀ x ∈ q.P, x = value) ∧
    Invariant (Clear p) ∧
    (Invariant p →
      Invariant (Normalize log p) ∧
      (p.LP ≠ [] → ∃ q, LogNormalize exp log p = some q ∧ Invariant q) ∧
      Invariant (PToLP log p) ∧
      Invariant (LPToP exp p) ∧
      Invariant (Randomize log draws p) ∧
      ∃ q, Sort_ log p = some q ∧ Invariant q) := by
  refine ⟨?_, ?_, ?_, ?_⟩
  · intro n hn
    refine ⟨_, by rw [Resize, if_neg (not_lt.mpr hn)], ?_, ?_, ?_, ?_⟩
    · simp [Invariant]
    · simp only [List.length_replicate]; omega
    · simp only [List.length_replicate]; omega
    · simp only [List.length_replicate]; omega
  · intro n value hn
    refine ⟨_, by rw [Assign, if_neg (not_lt.mpr hn)], ?_, ?_, ?_, ?_, ?_⟩
    · simp [Invariant]
    · simp only [List.length_replicate]; omega
    · simp only [List.length_replicate]; omega
    · simp only [List.length_replicate]; omega
    · intro x hx
      exact List.eq_of_mem_replicate hx
  · simp [Invariant, Clear]
  · intro hinv
    obtain ⟨h1, h2⟩ := hinv
    refine ⟨?_, ?_, ?_, ?_, ?_, ?_⟩
    · simp only [Invariant, Normalize, PToLP, Norm, List.length_map]
      exact ⟨trivial, by rw [h1, h2]⟩
    · intro hne
      obtain ⟨vd0, rest, hLP⟩ := List.exists_cons_of_ne_nil hne
      refine ⟨_, by rw [LogNormalize, hLP, Lognorm], ?_⟩
      simp only [Invariant, LPToP, Lognorm.shift, List.length_map]
      refine ⟨trivial, ?_⟩
      rw [← hLP]
      exact h2
    · simp only [Invariant, PToLP, List.length_map]
      exact ⟨trivial, by rw [h1, h2]⟩
    · simp only [Invariant, LPToP, List.length_map]
      exact ⟨trivial, h2⟩
    · simp only [Invariant, Randomize, Normalize, PToLP, Norm, List.length_map,
        List.length_range]
      exact ⟨trivial, by rw [h1, h2]⟩
    · have hle : p.P.length ≤ p.samples.length := by omega
      refine ⟨_, Sort_.eq_some log p hle, ?_⟩
      simp only [Invariant, List.length_map, List.length_append, List.length_drop,
        Sort_.filterMap_length p.P p.samples hle, Sort_.sorted_length]
      exact ⟨trivial, by omega⟩

theorem length_invariant_witness :
    ((0 : Int) ≤ 3 ∧ ∃ q, Resize 3 sampleProb = some q ∧ Invariant q ∧
      (q.P.length : Int) = 3 ∧ (q.LP.length : Int) = 3 ∧ (q.samples.length : Int) = 3) ∧
    ((0 : Int) ≤ 2 ∧ ∃ q, Assign 2 (0.5 : ℝ) sampleProb = some q ∧ Invariant q ∧
      (q.P.length : Int) = 2 ∧ (q.LP.length : Int) = 2 ∧ (q.samples.length : Int) = 2 ∧
      ∀ x ∈ q.P, x = 0.5) ∧
    Invariant (Clear sampleProb) ∧
    (Invariant sampleProb ∧ sampleProb.LP ≠ []) ∧
    Invariant (Normalize Real.log sampleProb) ∧
    (∃ q, LogNormalize Real.exp Real.log sampleProb = some q ∧ Invariant q) ∧
    Invariant (PToLP Real.log sampleProb) ∧
    Invariant (LPToP Real.exp sampleProb) ∧
    Invariant (Randomize Real.log (fun _ => 0.5) sampleProb) ∧
    ∃ q, Sort_ Real.log sampleProb = some q ∧ Invariant q := by
  have hinv : Invariant sampleProb := ⟨rfl, rfl⟩
  have hne : sampleProb.LP ≠ [] := by simp [sampleProb]
  obtain ⟨h1, h2, h3, h4⟩ := length_invariant Real.exp Real.log (fun _ => (0.5 : ℝ)) sampleProb
  obtain ⟨h5, h6, h7, h8, h9, h10⟩ := h4 hinv
  exact ⟨⟨by decide, h1 3 (by decide)⟩, ⟨by decide, h2 2 0.5 (by decide)⟩, h3, ⟨hinv, hne⟩, h5,
    h6 hne, h7, h8, h9, h10⟩

/-- C19 (as stated) fails for `LogNormalize` on the empty distribution: the
invariant holds, but `Lognorm` reads `vd[0]` of an empty vector and the call has
no defined result. -/
theorem LogNormalize_empty :
    Invariant ({ P := [], LP := [], samples := [] } : Prob ℝ String) ∧
    LogNormalize Real.exp Real.log ({ P := [], LP := [], samples := [] } : Prob ℝ String)
      = none :=
  ⟨⟨rfl, rfl⟩, rfl⟩

end Prob

end MV2H
